import Mathlib

/-!
Verification of the chat2txt transcript engine (`src/chat2txt/processor.py`).

Strings are modelled as `List Char`.  Python's character classes `\s`, `\d`,
`\w` are modelled over their ASCII ranges (the transcripts and all fixed
vocabulary are ASCII); `int(...)` is modelled for ASCII digit strings with an
optional sign and surrounding whitespace (the underscore digit-separator
feature of Python's `int` is irrelevant here because the parsed segment is
the result of splitting on `_`).  All inputs handled by the engine are
newline-free at the point where the body-line pattern is applied, because the
content has been split on `'\n'` first; the regex model below relies on this.
-/

namespace Chat2Txt

abbrev Str := List Char

def str (s : String) : Str := s.data

/-- Python `\s` over ASCII: space, tab, newline, carriage return,
vertical tab, form feed. -/
def pySpace (c : Char) : Bool :=
  c = ' ' || c = '\t' || c = '\n' || c = '\r' || c = '\x0b' || c = '\x0c'

/-- Python `\d` over ASCII. -/
def pyDigit (c : Char) : Bool := '0' ≤ c && c ≤ '9'

/-- Python `\w` over ASCII. -/
def pyWord (c : Char) : Bool :=
  pyDigit c || ('a' ≤ c && c ≤ 'z') || ('A' ≤ c && c ≤ 'Z') || c = '_'

/-- `str.strip()` from the right only (used for `rstrip`-style operations). -/
def stripTrailing (p : Char → Bool) (cs : Str) : Str :=
  (cs.reverse.dropWhile p).reverse

/-- Python `str.strip()` (both ends), over the modelled whitespace class. -/
def pyStrip (cs : Str) : Str :=
  stripTrailing pySpace (cs.dropWhile pySpace)

/-- `line.rstrip('\r\n\x15')` from `process_cha_content`. -/
def lineJunk (c : Char) : Bool := c = '\r' || c = '\n' || c = '\x15'

def normalizeLine (cs : Str) : Str := stripTrailing lineJunk cs

/-- `str.split` / `re.split` on a character class: keeps empty fragments,
including at both ends (Python semantics). -/
def splitOnPred (p : Char → Bool) : Str → List Str
  | [] => [[]]
  | c :: rest =>
    if p c then [] :: splitOnPred p rest
    else
      match splitOnPred p rest with
      | [] => [[c]]
      | h :: t => (c :: h) :: t

/-- `content.split('\n')`. -/
def chaLines (content : Str) : List Str := splitOnPred (fun c => c = '\n') content

/-- Does `pat` occur at the start of the second argument? (list prefix test) -/
def headMatches : Str → Str → Bool
  | [], _ => true
  | _ :: _, [] => false
  | a :: as, b :: bs => (a = b : Bool) && headMatches as bs

/-- Python's substring containment `pat in hay`. -/
def hasSubstr (pat : Str) : Str → Bool
  | [] => pat.isEmpty
  | c :: rest => headMatches pat (c :: rest) || hasSubstr pat rest

/-- Numeric value of an ASCII digit string. -/
def digitsVal (ds : Str) : Nat := ds.foldl (fun a c => a * 10 + (c.toNat - '0'.toNat)) 0

/-- Python `int(s)` on a string without underscores: optional surrounding
whitespace, optional single sign, then one or more digits; anything else is
a `ValueError` (here: `none`). -/
def pyInt (cs : Str) : Option Int :=
  let t := pyStrip cs
  match t with
  | '+' :: ds => if ds ≠ [] ∧ ds.all pyDigit then some (digitsVal ds : Int) else none
  | '-' :: ds => if ds ≠ [] ∧ ds.all pyDigit then some (-(digitsVal ds : Int)) else none
  | ds => if ds ≠ [] ∧ ds.all pyDigit then some (digitsVal ds : Int) else none

/-- `code.split('_')[-1]` (the split result is never empty). -/
def lastSegment (cs : Str) : Str := (splitOnPred (fun c => c = '_') cs).getLastD []

/-- `int(timestamp_code.split('_')[-1])`, with the `ValueError` turned into
`none`.  (`IndexError` is impossible: `split` always returns at least one
segment.) -/
def parseTimestamp (code : Str) : Option Int := pyInt (lastSegment code)

/-! ### The body-line regex `^\*PAR(\d+):\s+(.*) . (\S+_\S+)$`

The pattern is embedded as a recursive matcher that mirrors the backtracking
behaviour of the Python regex engine on newline-free input: `\d+`, `\s+` and
`.*` are greedy, the bare ` . ` in the middle is ``space, any character,
space``, and `\S+_\S+` is a run of non-whitespace characters containing an
interior underscore, anchored at the end of the line. -/

/-- Full-match test for `\S+_\S+`: all characters non-whitespace and an
underscore occurs at an interior position (so both `\S+` groups are
non-empty). -/
def tokOk (tok : Str) : Bool :=
  tok.all (fun c => !pySpace c) && ((tok.drop 1).dropLast.contains '_')

/-- Attempt to match ` . (\S+_\S+)$` at exactly the current position
(the `(.*)` before it being empty). -/
def tailFallback (c : Char) (rest : Str) : Option (Str × Char × Str) :=
  match rest with
  | d :: c2 :: tok =>
    if c = ' ' ∧ c2 = ' ' ∧ d ≠ '\n' ∧ tokOk tok = true then some ([], d, tok) else none
  | _ => none

/-- Match `(.*) . (\S+_\S+)$` against the whole input, preferring the longest
`(.*)` (greedy), and returning (text, delimiter, timing token). -/
def tailMatch : Str → Option (Str × Char × Str)
  | [] => none
  | c :: rest =>
    if c = '\n' then none
    else
      match tailMatch rest with
      | some (t, d, tok) => some (c :: t, d, tok)
      | none => tailFallback c rest

/-- Continue `\s+` greedily (at least one whitespace character has already
been consumed), falling back to starting `(.*)` at the current position. -/
def afterWs : Str → Option (Str × Char × Str)
  | [] => none
  | c :: rest =>
    if pySpace c then
      match afterWs rest with
      | some r => some r
      | none => tailMatch (c :: rest)
    else tailMatch (c :: rest)

/-- Match `\s+(.*) . (\S+_\S+)$` against the whole input. -/
def wsThenTail : Str → Option (Str × Char × Str)
  | [] => none
  | c :: rest => if pySpace c then afterWs rest else none

/-- `BODY_LINE_REGEX.match(line)`: on success returns
(speaker id, utterance text, timing code) — groups 1, 2 and 3. -/
def bodyLineMatch (line : Str) : Option (Str × Str × Str) :=
  match line with
  | '*' :: 'P' :: 'A' :: 'R' :: rest =>
    let ds := rest.takeWhile pyDigit
    if ds.isEmpty then none
    else
      match rest.dropWhile pyDigit with
      | ':' :: rest2 =>
        match wsThenTail rest2 with
        | some (t, _, tok) => some (ds, t, tok)
        | none => none
      | _ => none
  | _ => none

/-! ### Utterance extraction (shared by both passes) -/

structure Utt where
  par : Str
  text : Str
  code : Str
deriving DecidableEq

/-- One line of either pass: normalize, match the body pattern, and strip the
timing code (`utterance_match.group(3).strip()`). -/
def matchLine (raw : Str) : Option Utt :=
  match bodyLineMatch (normalizeLine raw) with
  | some (p, t, c) => some ⟨p, t, pyStrip c⟩
  | none => none

/-- All utterances of a transcript, in document order. -/
def extractUtts (content : Str) : List Utt :=
  (chaLines content).filterMap matchLine

def listenPhrase : Str := str "listen to each prompt"

def PROMPTS : List (Str × Str) :=
  [ (str "happy", str "story about a time when you felt excited or really happy"),
    (str "angry", str "story about a time when you were really annoyed or angry"),
    (str "confused", str "story about a time when you felt worried or confused"),
    (str "proud", str "story about a time when you felt proud of yourself"),
    (str "problem", str "story about a time when you had a problem"),
    (str "important",
      str "story about something that has happened to you that was very important to you") ]

/-! ### C-unit segmentation (`segment_into_c_units`)

The three `re.sub` rewrites are embedded through a generic left-to-right
scanner `scanSub`: at each position a match is attempted; on success the
replacement is emitted and the scan resumes after the matched part, otherwise
the character is kept and the scan advances by one — exactly `re.sub`'s
behaviour for patterns that cannot match the empty string (all three patterns
here consume at least three characters). -/

def scanSubFuel (f : Str → Option (Str × Str)) : Nat → Str → Str
  | _, [] => []
  | 0, cs => cs
  | n + 1, c :: rest =>
    match f (c :: rest) with
    | some (rep, after) =>
      if after.length ≤ rest.length then rep ++ scanSubFuel f n after
      else c :: scanSubFuel f n rest
    | none => c :: scanSubFuel f n rest

/-- The scan itself; `cs.length` steps of fuel always suffice because every
accepted match consumes at least one character. -/
def scanSub (f : Str → Option (Str × Str)) (cs : Str) : Str :=
  scanSubFuel f cs.length cs

/-- One match attempt of `&-(\w+)` (replacement `(\1)`). -/
def matchAmp : Str → Option (Str × Str)
  | '&' :: '-' :: rest =>
    let w := rest.takeWhile pyWord
    if w.isEmpty then none
    else some ('(' :: w ++ [')'], rest.dropWhile pyWord)
  | _ => none

/-- After the group of a repetition pattern: match `\s*\[/\]\s*` followed by
the backreference `w`, trying the longest whitespace run before the
backreference first (greedy `\s*`), and return the remainder after the
backreference.  `k` bounds how many whitespace characters may still be given
back to the backreference. -/
def tryBackref (w rest : Str) : Nat → Option Str
  | 0 => if headMatches w rest then some (rest.drop w.length) else none
  | k + 1 =>
    if headMatches w (rest.drop (k + 1)) then some ((rest.drop (k + 1)).drop w.length)
    else tryBackref w rest k

/-- Match `\s*\[/\]\s*` ++ backreference `w`; the first `\s*` is forced (the
following literal `[` is not whitespace), the second backtracks via
`tryBackref`. -/
def matchRepTail (w rest : Str) : Option Str :=
  match rest.dropWhile pySpace with
  | '[' :: '/' :: ']' :: r2 => tryBackref w r2 (r2.takeWhile pySpace).length
  | _ => none

/-- One match attempt of `<([^>]+)>\s*\[/\]\s*\1` (replacement `(\1) \1`):
multi-word repetition. -/
def matchAngleRep : Str → Option (Str × Str)
  | '<' :: rest =>
    let ph := rest.takeWhile (fun c => c ≠ '>')
    if ph.isEmpty then none
    else
      match rest.dropWhile (fun c => c ≠ '>') with
      | '>' :: r1 =>
        match matchRepTail ph r1 with
        | some after => some ('(' :: ph ++ ')' :: ' ' :: ph, after)
        | none => none
      | _ => none
  | _ => none

/-- Descending search over the length of the group `(\S+)` (greedy, so the
longest candidate is tried first). -/
def trySingleRep (cs : Str) : Nat → Option (Str × Str)
  | 0 => none
  | l + 1 =>
    match matchRepTail (cs.take (l + 1)) (cs.drop (l + 1)) with
    | some after => some ('(' :: cs.take (l + 1) ++ ')' :: ' ' :: cs.take (l + 1), after)
    | none => trySingleRep cs l

/-- One match attempt of `(\S+)\s*\[/\]\s*\1` (replacement `(\1) \1`):
single-word repetition. -/
def matchSingleRep (cs : Str) : Option (Str × Str) :=
  let run := cs.takeWhile (fun c => !pySpace c)
  if run.isEmpty then none else trySingleRep cs run.length

/-- A sentence-terminating punctuation mark. -/
def isTerm (c : Char) : Bool := c = '.' || c = '?' || c = '!'

/-- `segment_into_c_units` from `processor.py`: the three rewrites, the split
on `[.?!]`, then strip / discard-empty / ensure-trailing-period. -/
def segment_into_c_units (text : Str) : List Str :=
  let t1 := scanSub matchAmp text
  let t2 := scanSub matchAngleRep t1
  let t3 := scanSub matchSingleRep t2
  let raw_units := splitOnPred isTerm t3
  raw_units.filterMap fun unit =>
    let u := pyStrip unit
    if u.isEmpty then none
    else if u.getLastD ' ' = '.' then some u
    else some (u ++ ['.'])

/-! ### The two passes of `process_cha_content` -/

/-- Pass-1 state update for one matched utterance: unconditional timestamp
overwrite on a successful parse, and unconditional prompt-speaker overwrite
on a phrase sighting. -/
def pass1step (st : Option Str × Int) (u : Utt) : Option Str × Int :=
  let ts := match parseTimestamp u.code with
    | some v => v
    | none => st.2
  let pp := if hasSubstr listenPhrase u.text then some u.par else st.1
  (pp, ts)

def pass1lineStep (st : Option Str × Int) (raw : Str) : Option Str × Int :=
  match matchLine raw with
  | none => st
  | some u => pass1step st u

/-- The whole first pass; `.1` is `prompt_par`, `.2` is `last_timestamp`
after the pass. -/
def pass1 (content : Str) : Option Str × Int :=
  (chaLines content).foldl pass1lineStep (none, 0)

/-- The `prompt_par` variable at the end of the first pass. -/
def promptSpeaker (content : Str) : Option Str := (pass1 content).1

/-- `'E' for the PAR with "listen to each prompt", 'C' for the other`.
Mirrors `if prompt_par and par_num == prompt_par:` — Python truthiness of
`prompt_par` is `≠ None` and `≠ ""`. -/
def roleChar (pp : Option Str) (par : Str) : Char :=
  match pp with
  | some p => if p ≠ [] ∧ par = p then 'E' else 'C'
  | none => 'C'

/-- The prompt-detection dictionary: name ↦ found? -/
abbrev PMap := List (Str × Bool)

/-- `prompts_found = {prompt: False for prompt in PROMPTS.keys()}`. -/
def initFound : PMap := PROMPTS.map fun pr => (pr.1, false)

/-- `prompts_found[name] = True`. -/
def setTrue (m : PMap) (name : Str) : PMap :=
  m.map fun kv => if kv.1 = name then (kv.1, true) else kv

/-- Dictionary lookup. -/
def pmLookup (m : PMap) (name : Str) : Option Bool :=
  (m.find? fun kv => kv.1 = name).map (·.2)

/-- Inner prompt loop body: on a phrase hit, emit the tag line and record the
find. -/
def tagUpdate (text : Str) (st : Str × PMap) (pr : Str × Str) : Str × PMap :=
  if hasSubstr pr.2 text then (st.1 ++ '+' :: ' ' :: pr.1 ++ ['\n'], setTrue st.2 pr.1)
  else st

/-- Per-C-unit loop body of pass 2: the role-prefixed C-unit line, then (if
enabled) the prompt tag lines. -/
def cuStep (pp : Option Str) (ip : Bool) (par text : Str) (st : Str × PMap) (cu : Str) :
    Str × PMap :=
  let st := (st.1 ++ roleChar pp par :: ' ' :: cu ++ ['\n'], st.2)
  if ip then PROMPTS.foldl (tagUpdate text) st else st

/-- Pass-2 handling of one raw line. -/
def pass2lineStep (pp : Option Str) (ip : Bool) (st : Str × Int × PMap) (raw : Str) :
    Str × Int × PMap :=
  match matchLine raw with
  | none => st
  | some u =>
    let ts := match parseTimestamp u.code with
      | some v => v
      | none => st.2.1
    let (o, f) := (segment_into_c_units u.text).foldl (cuStep pp ip u.par u.text) (st.1, st.2.2)
    (o, ts, f)

/-- The state (output so far, `last_timestamp`, `prompts_found`) after the
second pass, before the closing-timestamp line. -/
def processState (content : Str) (include_prompts : Bool) : Str × Int × PMap :=
  let s1 := pass1 content
  (chaLines content).foldl (pass2lineStep s1.1 include_prompts) (str "- 0:00\n", s1.2, initFound)

/-- The final `last_timestamp` value. -/
def finalTimestamp (content : Str) (include_prompts : Bool) : Int :=
  (processState content include_prompts).2.1

/-- Decimal digits of a natural number. -/
def natDigits (n : Nat) : Str := (Nat.repr n).data

/-- `f"{seconds:02d}"` for the values that occur here (non-negative). -/
def pad2 (n : Nat) : Str := if n < 10 then '0' :: natDigits n else natDigits n

/-- The closing line `- <minutes>:<seconds:02d>` for a (positive) timestamp;
`// 1000` and `// 60` on the positive `last_timestamp` are natural-number
divisions. -/
def closingLine (ts : Int) : Str :=
  str "- " ++ natDigits (ts.toNat / 1000 / 60) ++ ':' :: pad2 (ts.toNat / 1000 % 60) ++ ['\n']

/-- `process_cha_content(content, include_prompts)`: returns the output text
and the prompt map. -/
def process_cha_content (content : Str) (include_prompts : Bool) : Str × PMap :=
  let st := processState content include_prompts
  let out := if st.2.1 > 0 then st.1 ++ closingLine st.2.1 else st.1
  (out, st.2.2)

/-! ### Derived description of the emitted block of one utterance -/

/-- The tag lines triggered by one utterance's raw text. -/
def tagLinesFor (ip : Bool) (text : Str) : List Str :=
  if ip then (PROMPTS.filter fun pr => hasSubstr pr.2 text).map (fun pr => '+' :: ' ' :: pr.1)
  else []

/-- The output lines contributed by a single matched utterance: for every
C-unit, its role-prefixed line followed by the tag lines. -/
def uttLines (pp : Option Str) (ip : Bool) (u : Utt) : List Str :=
  (segment_into_c_units u.text).flatMap fun cu =>
    (roleChar pp u.par :: ' ' :: cu) :: tagLinesFor ip u.text

/-- Newline-terminate and concatenate a list of lines. -/
def renderLines (ls : List Str) : Str := ls.flatMap fun l => l ++ ['\n']

/-- The block of raw output text contributed by one raw input line. -/
def lineBlock (pp : Option Str) (ip : Bool) (raw : Str) : Str :=
  match matchLine raw with
  | none => []
  | some u => renderLines (uttLines pp ip u)

/-! ### Basic lemmas about the helpers -/

theorem mem_dropWhile_of_mem {p : Char → Bool} {c : Char} (hpc : p c = false) :
    ∀ {l : Str}, c ∈ l → c ∈ l.dropWhile p := by
  intro l hl
  induction l with
  | nil => simp at hl
  | cons a t ih =>
    by_cases ha : p a = true
    · rw [List.dropWhile_cons_of_pos ha]
      rcases List.mem_cons.1 hl with rfl | h
      · rw [ha] at hpc; cases hpc
      · exact ih h
    · rw [List.dropWhile_cons_of_neg ha]
      exact hl

theorem mem_stripTrailing_of_mem {p : Char → Bool} {c : Char} (hpc : p c = false)
    {l : Str} (hl : c ∈ l) : c ∈ stripTrailing p l := by
  unfold stripTrailing
  rw [List.mem_reverse]
  exact mem_dropWhile_of_mem hpc (List.mem_reverse.2 hl)

theorem mem_of_mem_stripTrailing {p : Char → Bool} {c : Char} {l : Str}
    (h : c ∈ stripTrailing p l) : c ∈ l := by
  unfold stripTrailing at h
  rw [List.mem_reverse] at h
  exact List.mem_reverse.1 ((List.dropWhile_sublist p).mem h)

theorem mem_pyStrip_of_mem {c : Char} (hc : pySpace c = false) {l : Str} (hl : c ∈ l) :
    c ∈ pyStrip l :=
  mem_stripTrailing_of_mem hc (mem_dropWhile_of_mem hc hl)

theorem mem_of_mem_pyStrip {c : Char} {l : Str} (h : c ∈ pyStrip l) : c ∈ l :=
  (List.dropWhile_sublist pySpace).mem (mem_of_mem_stripTrailing h)

theorem splitOnPred_ne_nil (p : Char → Bool) : ∀ cs : Str, splitOnPred p cs ≠ [] := by
  intro cs
  induction cs with
  | nil => simp [splitOnPred]
  | cons c rest ih =>
    rw [splitOnPred]
    split
    · simp
    · cases h : splitOnPred p rest <;> simp

/-- Every character of every fragment produced by `splitOnPred` fails the
split predicate (the separators are consumed). -/
theorem mem_splitOnPred_sep {p : Char → Bool} :
    ∀ {cs frag : Str}, frag ∈ splitOnPred p cs → ∀ c ∈ frag, p c = false := by
  intro cs
  induction cs with
  | nil =>
    intro frag h c hc
    simp [splitOnPred] at h
    subst h; simp at hc
  | cons a rest ih =>
    intro frag h c hc
    rw [splitOnPred] at h
    by_cases ha : p a = true
    · rw [if_pos ha] at h
      rcases List.mem_cons.1 h with rfl | h'
      · simp at hc
      · exact ih h' c hc
    · rw [if_neg ha] at h
      rcases hsp : splitOnPred p rest with _ | ⟨h0, t0⟩
      · exact absurd hsp (splitOnPred_ne_nil p rest)
      · rw [hsp] at h
        rcases List.mem_cons.1 h with rfl | h'
        · rcases List.mem_cons.1 hc with rfl | hc'
          · exact Bool.eq_false_iff.2 ha
          · exact ih (hsp ▸ List.mem_cons_self h0 t0) c hc'
        · exact ih (hsp ▸ List.mem_cons_of_mem h0 h') c hc

theorem getLastD_mem {l : Str} (h : l ≠ []) (d : Char) : l.getLastD d ∈ l := by
  rw [List.getLastD_eq_getLast?, List.getLast?_eq_getLast l h]
  exact List.getLast_mem h

/-! ### C7 and C1: the segmenter -/

/-- C7: `segment_into_c_units` applied to the utterance text
`"I want this [/] this now"` returns exactly the one-element list
`["I want (this) this now."]` — single-word repetition markup is rewritten
to parenthesized form, the whole text stays one unit, and a trailing period
is appended. -/
theorem c7_single_word_repetition :
    segment_into_c_units (str "I want this [/] this now") = [str "I want (this) this now."] := by
  decide

/-- C1: every string returned by `segment_into_c_units` is non-empty after
whitespace trimming and ends with exactly one trailing period; fragments that
are empty after trimming are discarded, never emitted. -/
theorem c1_c_unit_invariant (text u : Str) (hu : u ∈ segment_into_c_units text) :
    pyStrip u ≠ [] ∧ u.getLast? = some '.' ∧ u.dropLast.getLast? ≠ some '.' := by
  unfold segment_into_c_units at hu
  rcases List.mem_filterMap.1 hu with ⟨frag, hfrag, hsome⟩
  dsimp only at hsome
  set s := pyStrip frag with hs
  have hterm : ∀ c ∈ frag, isTerm c = false := mem_splitOnPred_sep hfrag
  have hdot_s : '.' ∉ s := by
    intro hmem
    have : isTerm '.' = false := hterm '.' (mem_of_mem_pyStrip hmem)
    simp [isTerm] at this
  by_cases hemp : s.isEmpty = true
  · rw [if_pos hemp] at hsome; cases hsome
  · rw [if_neg hemp] at hsome
    have hsne : s ≠ [] := by
      intro h; rw [h] at hemp; simp at hemp
    have hlast : ¬ (s.getLastD ' ' = '.') := by
      intro h
      exact hdot_s (h ▸ getLastD_mem hsne ' ')
    rw [if_neg hlast] at hsome
    have hueq : u = s ++ ['.'] := by
      injection hsome with h; exact h.symm
    subst hueq
    refine ⟨?_, List.getLast?_concat s, ?_⟩
    · have hmem : '.' ∈ pyStrip (s ++ ['.']) :=
        mem_pyStrip_of_mem (by decide) (by simp)
      intro hnil; rw [hnil] at hmem; simp at hmem
    · rw [List.dropLast_concat]
      intro h
      rw [List.getLast?_eq_getLast s hsne] at h
      injection h with h'
      exact hdot_s (h' ▸ List.getLast_mem hsne)

/-! ### Decomposing the two fold passes -/

/-- The timestamp component of a pass-1/pass-2 step. -/
def tsStep (t : Int) (u : Utt) : Int :=
  match parseTimestamp u.code with
  | some v => v
  | none => t

/-- The prompt-speaker component of a pass-1 step. -/
def ppStep (pp : Option Str) (u : Utt) : Option Str :=
  if hasSubstr listenPhrase u.text then some u.par else pp

/-- The prompt-map effect of one utterance text (the inner `PROMPTS` loop). -/
def applyFound (text : Str) (f : PMap) : PMap :=
  PROMPTS.foldl (fun m pr => if hasSubstr pr.2 text then setTrue m pr.1 else m) f

/-- The timestamp component of a pass-2 line step. -/
def tsLineStep (t : Int) (raw : Str) : Int :=
  match matchLine raw with
  | none => t
  | some u => tsStep t u

/-- The prompt-map component of a pass-2 line step. -/
def foundLineStep (ip : Bool) (f : PMap) (raw : Str) : PMap :=
  match matchLine raw with
  | none => f
  | some u => (segment_into_c_units u.text).foldl (fun m _ => if ip then applyFound u.text m else m) f

theorem foldl_match_filterMap {β : Type} (g : β → Utt → β) :
    ∀ (ls : List Str) (st : β),
      ls.foldl (fun s raw => match matchLine raw with | none => s | some u => g s u) st
        = (ls.filterMap matchLine).foldl g st := by
  intro ls
  induction ls with
  | nil => intro st; rfl
  | cons l t ih =>
    intro st
    cases h : matchLine l <;> simp [List.foldl_cons, List.filterMap_cons, h, ih]

theorem getLast?_getD_cons {α : Type} (a b : α) (l : List α) :
    ((a :: l).getLast?).getD b = (l.getLast?).getD a := by
  induction l with
  | nil => rfl
  | cons c m _ => rw [List.getLast?_cons_cons]; cases hm : (c :: m).getLast? <;> simp_all

theorem getLast?_or_cons {α : Type} (a : α) (l : List α) (b : Option α) :
    ((a :: l).getLast?).or b = (l.getLast?).or (some a) := by
  induction l with
  | nil => rfl
  | cons c m _ => rw [List.getLast?_cons_cons]; cases hm : (c :: m).getLast? <;> simp_all

/-- A fold of `tsStep` is last-successful-parse-wins. -/
theorem foldl_tsStep (us : List Utt) :
    ∀ t₀ : Int, us.foldl tsStep t₀
      = ((us.filterMap fun u => parseTimestamp u.code).getLast?).getD t₀ := by
  induction us with
  | nil => intro t₀; rfl
  | cons u t ih =>
    intro t₀
    rw [List.foldl_cons, List.filterMap_cons]
    cases h : parseTimestamp u.code with
    | none => rw [ih]; simp [tsStep, h]
    | some v => rw [ih]; simp only [tsStep, h]; rw [getLast?_getD_cons]

/-- A fold of `ppStep` is last-sighting-wins. -/
theorem foldl_ppStep (us : List Utt) :
    ∀ pp₀ : Option Str, us.foldl ppStep pp₀
      = (((us.filter fun u => hasSubstr listenPhrase u.text).map Utt.par).getLast?).or pp₀ := by
  induction us with
  | nil => intro pp₀; rfl
  | cons u t ih =>
    intro pp₀
    rw [List.foldl_cons, List.filter_cons]
    cases h : hasSubstr listenPhrase u.text with
    | false => rw [ih]; simp [ppStep, h]
    | true =>
      rw [ih]; simp only [ppStep, h, if_true, if_pos, List.map_cons]
      rw [getLast?_or_cons]

theorem pass1step_pair (pp : Option Str) (t : Int) (u : Utt) :
    pass1step (pp, t) u = (ppStep pp u, tsStep t u) := rfl

theorem foldl_pass1step (us : List Utt) :
    ∀ (pp : Option Str) (t : Int),
      us.foldl pass1step (pp, t) = (us.foldl ppStep pp, us.foldl tsStep t) := by
  induction us with
  | nil => intro pp t; rfl
  | cons u tl ih => intro pp t; rw [List.foldl_cons, pass1step_pair, ih]; rfl

theorem pass1_eq (content : Str) :
    pass1 content
      = ((extractUtts content).foldl ppStep none, (extractUtts content).foldl tsStep 0) := by
  unfold pass1 extractUtts
  rw [show (chaLines content).foldl pass1lineStep (none, 0)
        = (chaLines content).foldl
            (fun s raw => match matchLine raw with | none => s | some u => pass1step s u)
            (none, 0) from rfl,
      foldl_match_filterMap, foldl_pass1step]

/-- The prompt speaker is the speaker of the last phrase-containing
utterance. -/
theorem promptSpeaker_eq (content : Str) :
    promptSpeaker content
      = (((extractUtts content).filter fun u => hasSubstr listenPhrase u.text).map
          Utt.par).getLast? := by
  unfold promptSpeaker
  rw [pass1_eq]
  simp only
  rw [foldl_ppStep, Option.or_none]

/-- The inner `PROMPTS` loop: output and found-map effects. -/
theorem foldl_tagUpdate (text : Str) (ps : List (Str × Str)) :
    ∀ (o : Str) (f : PMap),
      ps.foldl (tagUpdate text) (o, f)
        = (o ++ renderLines ((ps.filter fun pr => hasSubstr pr.2 text).map
            fun pr => '+' :: ' ' :: pr.1),
           ps.foldl (fun m pr => if hasSubstr pr.2 text then setTrue m pr.1 else m) f) := by
  induction ps with
  | nil => intro o f; simp [renderLines]
  | cons pr t ih =>
    intro o f
    rw [List.foldl_cons, List.filter_cons]
    cases h : hasSubstr pr.2 text with
    | false =>
      simp only [tagUpdate, h, Bool.false_eq_true, if_false, ih, List.foldl_cons]
    | true =>
      simp only [tagUpdate, h, if_true, List.map_cons, List.foldl_cons, ih, Prod.mk.injEq]
      exact ⟨by simp [renderLines, List.append_assoc], trivial⟩

/-- The per-C-unit loop: output and found-map effects. -/
theorem foldl_cuStep (pp : Option Str) (ip : Bool) (par text : Str) (cus : List Str) :
    ∀ (o : Str) (f : PMap),
      cus.foldl (cuStep pp ip par text) (o, f)
        = (o ++ renderLines (cus.flatMap fun cu =>
             (roleChar pp par :: ' ' :: cu) :: tagLinesFor ip text),
           cus.foldl (fun m _ => if ip then applyFound text m else m) f) := by
  induction cus with
  | nil => intro o f; simp [renderLines]
  | cons cu t ih =>
    intro o f
    rw [List.foldl_cons]
    cases ip with
    | false =>
      simp only [cuStep, Bool.false_eq_true, if_false, ih]
      simp [renderLines, tagLinesFor, List.append_assoc]
    | true =>
      simp only [cuStep, if_true, foldl_tagUpdate, ih, List.foldl_cons, Prod.mk.injEq]
      refine ⟨?_, ?_⟩
      · simp [renderLines, tagLinesFor, List.append_assoc]
      · simp [applyFound]

/-- The second pass decomposed: output blocks, timestamp fold, found fold. -/
theorem foldl_pass2lineStep (pp : Option Str) (ip : Bool) (ls : List Str) :
    ∀ (o : Str) (t : Int) (f : PMap),
      ls.foldl (pass2lineStep pp ip) (o, t, f)
        = (o ++ ls.flatMap (lineBlock pp ip),
           ls.foldl tsLineStep t,
           ls.foldl (foundLineStep ip) f) := by
  induction ls with
  | nil => intro o t f; simp
  | cons raw rest ih =>
    intro o t f
    rw [List.foldl_cons, List.foldl_cons, List.foldl_cons, List.flatMap_cons]
    cases h : matchLine raw with
    | none =>
      simp only [pass2lineStep, h, tsLineStep, foundLineStep, lineBlock]
      rw [ih]; simp
    | some u =>
      simp only [pass2lineStep, h, tsLineStep, foundLineStep, lineBlock, foldl_cuStep]
      rw [ih]
      simp [uttLines, List.append_assoc, tsStep]

/-- The pre-closing state of the engine, in structured form. -/
theorem processState_eq (content : Str) (ip : Bool) :
    processState content ip
      = (str "- 0:00\n" ++ (chaLines content).flatMap (lineBlock (promptSpeaker content) ip),
         (chaLines content).foldl tsLineStep (pass1 content).2,
         (chaLines content).foldl (foundLineStep ip) initFound) := by
  unfold processState
  rw [foldl_pass2lineStep]
  rfl

/-- The final timestamp is the value of the last parsable timing code (or 0). -/
theorem finalTimestamp_eq (content : Str) (ip : Bool) :
    finalTimestamp content ip
      = (((extractUtts content).filterMap fun u => parseTimestamp u.code).getLast?).getD 0 := by
  unfold finalTimestamp
  rw [processState_eq]
  simp only
  have h2 : (chaLines content).foldl tsLineStep (pass1 content).2
      = (extractUtts content).foldl tsStep (pass1 content).2 := by
    unfold extractUtts
    rw [show (chaLines content).foldl tsLineStep (pass1 content).2
          = (chaLines content).foldl
              (fun s raw => match matchLine raw with | none => s | some u => tsStep s u)
              (pass1 content).2 from rfl,
        foldl_match_filterMap]
  rw [h2, pass1_eq]
  simp only
  rw [foldl_tsStep, foldl_tsStep]
  cases h : ((extractUtts content).filterMap fun u => parseTimestamp u.code).getLast? <;> simp

/-! ### Claims C3, C4, C5, C6, C10 -/

/-- C1 witness. -/
theorem c1_c_unit_invariant_witness :
    pyStrip (str "hi.") ≠ [] ∧ (str "hi.").getLast? = some '.'
      ∧ (str "hi.").dropLast.getLast? ≠ some '.' :=
  c1_c_unit_invariant (str "hi? ok") (str "hi.") (by decide)

/-- C3 counterexample: in a transcript where speaker `1` utters
"listen to each prompt" first and speaker `2` utters it later, the engine's
`prompt_par` is `2` (the last sighting), not `1` (the first), so the claim
that PromptSpeaker is the first such speaker is false. -/
theorem c3_counterexample :
    (((extractUtts (str
        "*PAR1: listen to each prompt . a_5\n*PAR2: a listen to each prompt b . b_6")).filter
          fun u => hasSubstr listenPhrase u.text).map Utt.par).head? = some (str "1")
    ∧ promptSpeaker (str
        "*PAR1: listen to each prompt . a_5\n*PAR2: a listen to each prompt b . b_6")
        = some (str "2")
    ∧ promptSpeaker (str
        "*PAR1: listen to each prompt . a_5\n*PAR2: a listen to each prompt b . b_6")
        ≠ some (str "1") := by
  refine ⟨by decide, by decide, by decide⟩

/-- C3 (amended): PromptSpeaker is the speaker id of the *last*
body-matching utterance containing "listen to each prompt" in document order
(`none` if no such utterance exists) — each sighting overwrites the previous
one. -/
theorem c3_amended (content : Str) :
    promptSpeaker content
      = (((extractUtts content).filter fun u => hasSubstr listenPhrase u.text).map
          Utt.par).getLast? :=
  promptSpeaker_eq content

/-- C4: the final LastTimestamp equals the value of the last timing code in
document order whose final underscore-delimited segment parses as an integer
(0 if none parses); successful parses overwrite unconditionally, failed
parses leave the value unchanged, and parse failures never affect the
emitted C-unit/tag lines (the pre-closing output text is independent of the
timestamp values). -/
theorem c4_last_timestamp (content : Str) (ip : Bool) :
    finalTimestamp content ip
      = (((extractUtts content).filterMap fun u => parseTimestamp u.code).getLast?).getD 0
    ∧ (processState content ip).1
      = str "- 0:00\n" ++ (chaLines content).flatMap (lineBlock (promptSpeaker content) ip) := by
  refine ⟨finalTimestamp_eq content ip, ?_⟩
  rw [processState_eq]

/-- C5: the output ends with the closing line `- M:SS`
(`M = (ts // 1000) // 60`, `SS = (ts // 1000) % 60` zero-padded to two
digits) exactly when the final LastTimestamp is strictly positive, and the
transcript whose last parsable timing code is `xyz_1500` yields closing line
`- 0:01`. -/
theorem c5_closing_line :
    (∀ (content : Str) (ip : Bool),
      (process_cha_content content ip).1
        = (processState content ip).1
          ++ (if 0 < finalTimestamp content ip then
                str "- " ++ natDigits ((finalTimestamp content ip).toNat / 1000 / 60)
                  ++ ':' :: pad2 ((finalTimestamp content ip).toNat / 1000 % 60) ++ ['\n']
              else []))
    ∧ (process_cha_content (str "*PAR1: hi . xyz_1500") true).1
        = str "- 0:00\nC hi.\n- 0:01\n" := by
  constructor
  · intro content ip
    show (if (processState content ip).2.1 > 0 then
            (processState content ip).1 ++ closingLine (processState content ip).2.1
          else (processState content ip).1) = _
    unfold finalTimestamp closingLine
    by_cases h : 0 < (processState content ip).2.1
    · rw [if_pos h, if_pos h]
    · rw [if_neg h, if_neg h, List.append_nil]
  · decide

theorem foldl_tsLineStep_no_match (ls : List Str)
    (h : ∀ raw ∈ ls, matchLine raw = none) : ∀ t : Int, ls.foldl tsLineStep t = t := by
  induction ls with
  | nil => intro t; rfl
  | cons raw rest ih =>
    intro t
    rw [List.foldl_cons]
    have hstep : tsLineStep t raw = t := by
      unfold tsLineStep; rw [h raw (List.mem_cons_self raw rest)]
    rw [hstep]
    exact ih (fun r hr => h r (List.mem_cons_of_mem raw hr)) t

/-- C6: if no line matches the body-line pattern, the output text is exactly
`"- 0:00\n"`: a single opening line, no C-unit lines, no tag lines, and no
closing timestamp line. -/
theorem c6_no_matching_lines (content : Str) (ip : Bool)
    (h : ∀ raw ∈ chaLines content, bodyLineMatch (normalizeLine raw) = none) :
    (process_cha_content content ip).1 = str "- 0:00\n" := by
  have hm : ∀ raw ∈ chaLines content, matchLine raw = none := by
    intro raw hraw; unfold matchLine; rw [h raw hraw]
  have hutts : extractUtts content = [] := by
    unfold extractUtts; exact List.filterMap_eq_nil_iff.2 hm
  have hblocks : ∀ pp, (chaLines content).flatMap (lineBlock pp ip) = [] := by
    intro pp
    refine List.flatMap_eq_nil_iff.2 ?_
    intro raw hraw
    unfold lineBlock; rw [hm raw hraw]
  have hts1 : (pass1 content).2 = 0 := by
    rw [pass1_eq, hutts]; rfl
  have hts : (processState content ip).2.1 = 0 := by
    rw [processState_eq]
    simp only
    rw [foldl_tsLineStep_no_match (chaLines content) hm, hts1]
  show (if (processState content ip).2.1 > 0 then
          (processState content ip).1 ++ closingLine (processState content ip).2.1
        else (processState content ip).1) = _
  rw [hts, if_neg (by decide : ¬ ((0 : Int) > 0))]
  rw [processState_eq]
  simp only
  rw [hblocks, List.append_nil]

/-- C6 witness. -/
theorem c6_no_matching_lines_witness :
    (process_cha_content (str "@UTF8\nhello there") true).1 = str "- 0:00\n" :=
  c6_no_matching_lines (str "@UTF8\nhello there") true (by decide)

/-- C10: a timing code whose final underscore segment parses as a negative
integer (e.g. `x_-5`) is accepted and overwrites LastTimestamp with the
negative value; if the last parsable timing code of the transcript is
negative, the closing timestamp line is omitted even when earlier utterances
carried positive timestamps. -/
theorem c10_negative_timestamp :
    parseTimestamp (str "x_-5") = some (-5)
    ∧ (∀ (content : Str) (ip : Bool) (v : Int),
        (((extractUtts content).filterMap fun u => parseTimestamp u.code).getLast?) = some v →
        v < 0 →
        (process_cha_content content ip).1 = (processState content ip).1)
    ∧ (process_cha_content (str "*PAR1: ok . a_1000\n*PAR2: later . b_-5") true).1
        = str "- 0:00\nC ok.\nC later.\n" := by
  refine ⟨by decide, ?_, by decide⟩
  intro content ip v hv hneg
  have hts : (processState content ip).2.1 = v := by
    have := finalTimestamp_eq content ip
    unfold finalTimestamp at this
    rw [this, hv]; rfl
  show (if (processState content ip).2.1 > 0 then
          (processState content ip).1 ++ closingLine (processState content ip).2.1
        else (processState content ip).1) = _
  rw [hts, if_neg (by omega : ¬ (v > 0))]

/-- C10 witness. -/
theorem c10_negative_timestamp_witness :
    (process_cha_content (str "*PAR1: ok . a_1000\n*PAR2: later . b_-5") true).1
      = (processState (str "*PAR1: ok . a_1000\n*PAR2: later . b_-5") true).1 :=
  c10_negative_timestamp.2.1 (str "*PAR1: ok . a_1000\n*PAR2: later . b_-5") true (-5)
    (by decide) (by decide)

/-! ### C2: role assignment -/

/-- Inversion of a successful body-line match: the line decomposes into the
`*PAR` marker, the (maximal, non-empty) digit run, the colon, and a region
accepted by `wsThenTail`. -/
theorem bodyLineMatch_inv {line p t tok : Str} (h : bodyLineMatch line = some (p, t, tok)) :
    ∃ rest rest2 d, line = '*' :: 'P' :: 'A' :: 'R' :: rest
      ∧ p = rest.takeWhile pyDigit ∧ ¬ p.isEmpty = true
      ∧ rest.dropWhile pyDigit = ':' :: rest2
      ∧ wsThenTail rest2 = some (t, d, tok) := by
  unfold bodyLineMatch at h
  split at h
  next rest =>
    dsimp only at h
    split at h
    next hde => exact absurd h (by simp)
    next hde =>
      split at h
      next rest2 heq =>
        split at h
        next t' d tok' hws =>
          simp only [Option.some.injEq, Prod.mk.injEq] at h
          obtain ⟨h1, h2, h3⟩ := h
          subst h1; subst h2; subst h3
          exact ⟨rest, rest2, d, rfl, rfl, hde, heq, hws⟩
        next => exact absurd h (by simp)
      next => exact absurd h (by simp)
  next => exact absurd h (by simp)

/-- Extracted speaker ids are non-empty digit strings, so Python's truthiness
test on `prompt_par` is just "not `None`". -/
theorem extract_par_ne_nil {content : Str} {u : Utt} (hu : u ∈ extractUtts content) :
    u.par ≠ [] := by
  unfold extractUtts at hu
  rcases List.mem_filterMap.1 hu with ⟨raw, _, hm⟩
  unfold matchLine at hm
  cases hb : bodyLineMatch (normalizeLine raw) with
  | none => rw [hb] at hm; cases hm
  | some trip =>
    obtain ⟨p, t, tok⟩ := trip
    rw [hb] at hm
    injection hm with hm
    rcases bodyLineMatch_inv hb with ⟨rest, rest2, d, _, hp, hde, _, _⟩
    rw [← hm]
    intro hnil
    apply hde
    rw [show Utt.par ⟨p, t, pyStrip tok⟩ = p from rfl] at hnil
    rw [hnil]
    rfl

theorem getLast?_all_eq {α : Type} {S : α} {l : List α} (hne : l ≠ [])
    (hall : ∀ x ∈ l, x = S) : l.getLast? = some S := by
  rw [List.getLast?_eq_getLast l hne]
  exact congrArg some (hall _ (List.getLast_mem hne))

/-- C2: if exactly the speaker `S` utters "listen to each prompt" in
body-matching lines (at least one such utterance, and no other speaker ever
does), then every C-unit line derived from `S`'s utterances is prefixed `E`
and every C-unit line derived from any other speaker's utterances is
prefixed `C` — speaker ids compared as strings. -/
theorem c2_role_assignment (content : Str) (ip : Bool) (S : Str)
    (h1 : ∀ u ∈ extractUtts content, hasSubstr listenPhrase u.text = true → u.par = S)
    (h2 : ∃ u ∈ extractUtts content, hasSubstr listenPhrase u.text = true ∧ u.par = S) :
    ∀ u ∈ extractUtts content,
      uttLines (promptSpeaker content) ip u
        = (segment_into_c_units u.text).flatMap fun cu =>
            (((if u.par = S then 'E' else 'C') : Char) :: ' ' :: cu)
              :: tagLinesFor ip u.text := by
  have hps : promptSpeaker content = some S := by
    rw [promptSpeaker_eq]
    apply getLast?_all_eq
    · rcases h2 with ⟨u, hu, hph, hpar⟩
      have hmem : u.par ∈ ((extractUtts content).filter
          fun v => hasSubstr listenPhrase v.text).map Utt.par :=
        List.mem_map_of_mem _ (List.mem_filter.2 ⟨hu, hph⟩)
      intro hnil; rw [hnil] at hmem; simp at hmem
    · intro x hx
      rcases List.mem_map.1 hx with ⟨u, hu, rfl⟩
      have hu' := List.mem_filter.1 hu
      exact h1 u hu'.1 hu'.2
  have hSne : S ≠ [] := by
    rcases h2 with ⟨u, hu, _, hpar⟩
    rw [← hpar]; exact extract_par_ne_nil hu
  intro u hu
  have hrole : roleChar (promptSpeaker content) u.par = if u.par = S then 'E' else 'C' := by
    rw [hps]
    by_cases hc : u.par = S
    · simp [roleChar, hc, hSne]
    · simp [roleChar, hc]
  unfold uttLines
  rw [hrole]

/-- C2 witness. -/
theorem c2_role_assignment_witness :
    uttLines (promptSpeaker
        (str "*PAR1: please listen to each prompt . a_5\n*PAR2: ok then . b_6")) true
        ⟨str "1", str "please listen to each prompt", str "a_5"⟩
      = (segment_into_c_units (str "please listen to each prompt")).flatMap fun cu =>
          (((if (str "1" : Str) = str "1" then 'E' else 'C') : Char) :: ' ' :: cu)
            :: tagLinesFor true (str "please listen to each prompt") :=
  c2_role_assignment (str "*PAR1: please listen to each prompt . a_5\n*PAR2: ok then . b_6")
    true (str "1") (by decide) (by decide)
    ⟨str "1", str "please listen to each prompt", str "a_5"⟩ (by decide)

/-! ### C8: characterisation of the body-line pattern -/

theorem tokOk_iff (tok : Str) :
    tokOk tok = true
      ↔ (∀ c ∈ tok, pySpace c = false)
        ∧ ∃ a b, tok = a ++ '_' :: b ∧ a ≠ [] ∧ b ≠ [] := by
  unfold tokOk
  rw [Bool.and_eq_true]
  constructor
  · rintro ⟨hall, hmem⟩
    refine ⟨fun c hc => by simpa using List.all_eq_true.1 hall c hc, ?_⟩
    have hmem' : '_' ∈ (tok.drop 1).dropLast := List.elem_iff.1 hmem
    rcases List.append_of_mem hmem' with ⟨s, t2, hst⟩
    cases tok with
    | nil => simp at hmem'
    | cons t0 rest0 =>
      rw [List.drop_one, List.tail_cons] at hst
      have hrne : rest0 ≠ [] := by
        intro h; rw [h] at hst; simp at hst
      have hrest : ∃ z, rest0 = (s ++ '_' :: t2) ++ [z] := by
        refine ⟨rest0.getLast hrne, ?_⟩
        conv_lhs => rw [← List.dropLast_append_getLast hrne]
        rw [hst]
      obtain ⟨z, hz⟩ := hrest
      refine ⟨t0 :: s, t2 ++ [z], ?_, by simp, by simp⟩
      rw [hz]
      simp [List.append_assoc]
  · rintro ⟨hns, a, b, rfl, ha, hb⟩
    constructor
    · exact List.all_eq_true.2 fun c hc => by simpa using hns c hc
    · rcases (List.eq_nil_or_concat b).resolve_left hb with ⟨b', b1, rfl⟩
      cases a with
      | nil => exact absurd rfl ha
      | cons a0 a' =>
        apply List.elem_iff.2
        rw [List.cons_append, List.drop_one, List.tail_cons, List.concat_eq_append,
            show a' ++ '_' :: (b' ++ [b1]) = (a' ++ '_' :: b') ++ [b1] by simp,
            List.dropLast_concat]
        simp

theorem tailFallback_sound {c : Char} {rest t : Str} {d : Char} {tok : Str}
    (h : tailFallback c rest = some (t, d, tok)) :
    t = [] ∧ c = ' ' ∧ rest = d :: ' ' :: tok ∧ d ≠ '\n' ∧ tokOk tok = true := by
  unfold tailFallback at h
  split at h
  next d' c2 tok' =>
    split at h
    next hcond =>
      simp only [Option.some.injEq, Prod.mk.injEq] at h
      obtain ⟨h1, h2, h3⟩ := h
      subst h1; subst h2; subst h3
      exact ⟨rfl, hcond.1, by rw [hcond.2.1], hcond.2.2.1, hcond.2.2.2⟩
    next => exact absurd h (by simp)
  next => exact absurd h (by simp)

theorem tailMatch_nil : tailMatch ([] : Str) = none := rfl

theorem tailMatch_cons (c : Char) (rest : Str) :
    tailMatch (c :: rest)
      = if c = '\n' then none
        else
          match tailMatch rest with
          | some (t, d, tok) => some (c :: t, d, tok)
          | none => tailFallback c rest := rfl

theorem tailMatch_sound :
    ∀ {cs t : Str} {d : Char} {tok : Str}, tailMatch cs = some (t, d, tok) →
      cs = t ++ ' ' :: d :: ' ' :: tok ∧ d ≠ '\n' ∧ tokOk tok = true
        ∧ (∀ c ∈ t, c ≠ '\n') := by
  intro cs
  induction cs with
  | nil => intro t d tok h; exact absurd h (by simp [tailMatch])
  | cons c rest ih =>
    intro t d tok h
    rw [tailMatch_cons] at h
    split at h
    next => exact absurd h (by simp)
    next hcn =>
      rcases hrec : tailMatch rest with _ | ⟨t', d', tok'⟩
      · rw [hrec] at h
        rcases tailFallback_sound h with ⟨rfl, rfl, hrest, hd, htok⟩
        exact ⟨by rw [hrest]; rfl, hd, htok, by simp⟩
      · rw [hrec] at h
        simp only [Option.some.injEq, Prod.mk.injEq] at h
        obtain ⟨h1, h2, h3⟩ := h
        subst h2; subst h3
        rcases ih hrec with ⟨hre, hd, htok, hnl⟩
        subst h1
        refine ⟨by rw [List.cons_append, hre], hd, htok, ?_⟩
        intro x hx
        rcases List.mem_cons.1 hx with rfl | hx'
        · exact hcn
        · exact hnl x hx'

theorem tailMatch_complete :
    ∀ (t : Str) (d : Char) (tok : Str), (∀ c ∈ t, c ≠ '\n') → d ≠ '\n' → tokOk tok = true →
      (tailMatch (t ++ ' ' :: d :: ' ' :: tok)).isSome := by
  intro t
  induction t with
  | nil =>
    intro d tok _ hd htok
    have hfb : tailFallback ' ' (d :: ' ' :: tok) = some ([], d, tok) := by
      unfold tailFallback
      exact if_pos ⟨rfl, rfl, hd, htok⟩
    rw [List.nil_append, tailMatch_cons, if_neg (by decide : ¬ (' ' = '\n'))]
    rcases hrec : tailMatch (d :: ' ' :: tok) with _ | r
    · simp only [hfb, Option.isSome_some]
    · simp only [Option.isSome_some]
  | cons c t' ih =>
    intro d tok hnl hd htok
    rw [List.cons_append, tailMatch_cons, if_neg (hnl c (List.mem_cons_self c t'))]
    have hih := ih d tok (fun x hx => hnl x (List.mem_cons_of_mem c hx)) hd htok
    rcases hrec : tailMatch (t' ++ ' ' :: d :: ' ' :: tok) with _ | r
    · rw [hrec] at hih; exact absurd hih (by simp)
    · simp only [Option.isSome_some]

/-- Unique decomposition around a space marker when the left part contains no
whitespace. -/
theorem space_run_unique :
    ∀ {x₁ x₂ y₁ y₂ : Str}, (∀ c ∈ x₁, pySpace c = false) → (∀ c ∈ x₂, pySpace c = false) →
      x₁ ++ ' ' :: y₁ = x₂ ++ ' ' :: y₂ → x₁ = x₂ ∧ y₁ = y₂ := by
  intro x₁
  induction x₁ with
  | nil =>
    intro x₂ y₁ y₂ _ hx₂ heq
    cases x₂ with
    | nil => simpa using heq
    | cons b x₂' =>
      rw [List.nil_append, List.cons_append] at heq
      have hb : b = ' ' := by
        have h := congrArg (fun l : Str => l.head?) heq
        simpa using h.symm
      have := hx₂ b (List.mem_cons_self b x₂')
      rw [hb] at this
      exact absurd this (by decide)
  | cons a x₁' ih =>
    intro x₂ y₁ y₂ hx₁ hx₂ heq
    cases x₂ with
    | nil =>
      rw [List.nil_append, List.cons_append] at heq
      have ha : a = ' ' := by
        have h := congrArg (fun l : Str => l.head?) heq
        simpa using h
      have := hx₁ a (List.mem_cons_self a x₁')
      rw [ha] at this
      exact absurd this (by decide)
    | cons b x₂' =>
      rw [List.cons_append, List.cons_append] at heq
      injection heq with h1 h2
      rcases ih (fun c hc => hx₁ c (List.mem_cons_of_mem a hc))
        (fun c hc => hx₂ c (List.mem_cons_of_mem b hc)) h2 with ⟨hh1, hh2⟩
      exact ⟨by rw [h1, hh1], hh2⟩

/-- The tail form `text ++ ' ' ++ delimiter ++ ' ' ++ token` with a valid
token decomposes uniquely: the token is forced to be the maximal non-space
suffix of the line. -/
theorem tail_decomp_unique {t₁ t₂ : Str} {d₁ d₂ : Char} {tok₁ tok₂ : Str}
    (h₁ : tokOk tok₁ = true) (h₂ : tokOk tok₂ = true)
    (heq : t₁ ++ ' ' :: d₁ :: ' ' :: tok₁ = t₂ ++ ' ' :: d₂ :: ' ' :: tok₂) :
    t₁ = t₂ ∧ d₁ = d₂ ∧ tok₁ = tok₂ := by
  have hrev : tok₁.reverse ++ ' ' :: d₁ :: ' ' :: t₁.reverse
      = tok₂.reverse ++ ' ' :: d₂ :: ' ' :: t₂.reverse := by
    have := congrArg List.reverse heq
    simpa [List.reverse_append] using this
  have hns₁ : ∀ c ∈ tok₁.reverse, pySpace c = false := by
    intro c hc
    exact ((tokOk_iff tok₁).1 h₁).1 c (List.mem_reverse.1 hc)
  have hns₂ : ∀ c ∈ tok₂.reverse, pySpace c = false := by
    intro c hc
    exact ((tokOk_iff tok₂).1 h₂).1 c (List.mem_reverse.1 hc)
  rcases space_run_unique hns₁ hns₂ hrev with ⟨hrtok, hrest⟩
  injection hrest with hd hrest'
  injection hrest' with _ hrt
  exact ⟨List.reverse_inj.1 hrt, hd, List.reverse_inj.1 hrtok⟩

theorem afterWs_cons (c : Char) (rest : Str) :
    afterWs (c :: rest)
      = if pySpace c then
          match afterWs rest with
          | some r => some r
          | none => tailMatch (c :: rest)
        else tailMatch (c :: rest) := rfl

theorem afterWs_none {cs : Str} (h : afterWs cs = none) : tailMatch cs = none := by
  cases cs with
  | nil => rfl
  | cons c rest =>
    rw [afterWs_cons] at h
    by_cases hsp : pySpace c = true
    · rw [if_pos hsp] at h
      rcases hx : afterWs rest with _ | r
      · rw [hx] at h; exact h
      · rw [hx] at h; exact absurd h (by simp)
    · rw [if_neg hsp] at h; exact h

/-- The head-shape of a text capture: empty, or starting with a non-space
character (the greedy `\s+` has consumed all whitespace it can). -/
def textHead (t : Str) : Prop := t = [] ∨ ∃ c0 t', t = c0 :: t' ∧ pySpace c0 = false

theorem afterWs_sound :
    ∀ {cs t : Str} {d : Char} {tok : Str}, afterWs cs = some (t, d, tok) →
      ∃ ws, cs = ws ++ t ++ ' ' :: d :: ' ' :: tok ∧ (∀ c ∈ ws, pySpace c = true)
        ∧ textHead t ∧ d ≠ '\n' ∧ tokOk tok = true ∧ (∀ c ∈ t, c ≠ '\n') := by
  intro cs
  induction cs with
  | nil => intro t d tok h; exact absurd h (by simp [afterWs])
  | cons c rest ih =>
    intro t d tok h
    rw [afterWs_cons] at h
    by_cases hsp : pySpace c = true
    · rw [if_pos hsp] at h
      rcases hx : afterWs rest with _ | r
      · have htm : tailMatch rest = none := afterWs_none hx
        rw [hx] at h
        -- h : tailMatch (c :: rest) = some (t, d, tok), with `tailMatch rest = none`
        simp only [tailMatch_cons, htm] at h
        split at h
        next => exact absurd h (by simp)
        next hcn =>
          rcases tailFallback_sound h with ⟨rfl, rfl, hrest, hd, htok⟩
          exact ⟨[], by rw [hrest]; rfl, by simp, Or.inl rfl, hd, htok, by simp⟩
      · rw [hx] at h
        obtain rfl : r = (t, d, tok) := by injection h
        rcases ih hx with ⟨ws, hws, hall, hth, hd, htok, hnl⟩
        refine ⟨c :: ws, by simp [hws], ?_, hth, hd, htok, hnl⟩
        intro x hx'
        rcases List.mem_cons.1 hx' with rfl | hx''
        · exact hsp
        · exact hall x hx''
    · rw [if_neg hsp] at h
      rcases tailMatch_sound h with ⟨heq, hd, htok, hnl⟩
      cases t with
      | nil =>
        rw [List.nil_append] at heq
        injection heq with h1 _
        rw [h1] at hsp
        exact absurd (by decide : pySpace ' ' = true) hsp
      | cons t0 t' =>
        rw [List.cons_append] at heq
        injection heq with h1 h2
        subst h1
        exact ⟨[], by rw [List.nil_append, List.cons_append, h2], by simp,
          Or.inr ⟨c, t', rfl, Bool.eq_false_iff.2 hsp⟩, hd, htok, hnl⟩

theorem afterWs_complete :
    ∀ (ws t : Str) (d : Char) (tok : Str), (∀ c ∈ ws, pySpace c = true) → textHead t →
      (∀ c ∈ t, c ≠ '\n') → d ≠ '\n' → tokOk tok = true →
      (afterWs (ws ++ t ++ ' ' :: d :: ' ' :: tok)).isSome := by
  intro ws
  induction ws with
  | nil =>
    intro t d tok _ hth hnl hd htok
    rw [List.nil_append]
    rcases hth with rfl | ⟨c0, t', rfl, hc0⟩
    · rw [List.nil_append, afterWs_cons, if_pos (by decide : pySpace ' ' = true)]
      rcases hx : afterWs (d :: ' ' :: tok) with _ | r
      · have hc := tailMatch_complete [] d tok (by simp) hd htok
        rw [List.nil_append] at hc
        simpa using hc
      · simp
    · rw [List.cons_append, afterWs_cons, if_neg (by simp [hc0])]
      have hc := tailMatch_complete (c0 :: t') d tok hnl hd htok
      rw [List.cons_append] at hc
      exact hc
  | cons w ws' ih =>
    intro t d tok hall hth hnl hd htok
    rw [List.cons_append, List.cons_append, afterWs_cons,
      if_pos (hall w (List.mem_cons_self w ws'))]
    have hih := ih t d tok (fun x hx => hall x (List.mem_cons_of_mem w hx)) hth hnl hd htok
    rcases hx : afterWs (ws' ++ t ++ ' ' :: d :: ' ' :: tok) with _ | r
    · rw [hx] at hih; exact absurd hih (by simp)
    · simp

theorem wsThenTail_cons (c : Char) (rest : Str) :
    wsThenTail (c :: rest) = if pySpace c then afterWs rest else none := rfl

theorem wsThenTail_sound {cs t : Str} {d : Char} {tok : Str}
    (h : wsThenTail cs = some (t, d, tok)) :
    ∃ ws, cs = ws ++ t ++ ' ' :: d :: ' ' :: tok ∧ ws ≠ [] ∧ (∀ c ∈ ws, pySpace c = true)
      ∧ textHead t ∧ d ≠ '\n' ∧ tokOk tok = true ∧ (∀ c ∈ t, c ≠ '\n') := by
  cases cs with
  | nil => exact absurd h (by simp [wsThenTail])
  | cons c rest =>
    rw [wsThenTail_cons] at h
    by_cases hsp : pySpace c = true
    · rw [if_pos hsp] at h
      rcases afterWs_sound h with ⟨ws, hws, hall, hth, hd, htok, hnl⟩
      refine ⟨c :: ws, by simp [hws], by simp, ?_, hth, hd, htok, hnl⟩
      intro x hx
      rcases List.mem_cons.1 hx with rfl | hx'
      · exact hsp
      · exact hall x hx'
    · rw [if_neg hsp] at h; exact absurd h (by simp)

/-- Unique split of a whitespace run followed by a text with a non-space (or
absent) head. -/
theorem ws_text_unique :
    ∀ {w₁ w₂ t₁ t₂ : Str}, (∀ c ∈ w₁, pySpace c = true) → (∀ c ∈ w₂, pySpace c = true) →
      textHead t₁ → textHead t₂ → w₁ ++ t₁ = w₂ ++ t₂ → w₁ = w₂ ∧ t₁ = t₂ := by
  intro w₁
  induction w₁ with
  | nil =>
    intro w₂ t₁ t₂ _ hw₂ hth₁ _ heq
    cases w₂ with
    | nil => simpa using heq
    | cons b w₂' =>
      rw [List.nil_append, List.cons_append] at heq
      rcases hth₁ with rfl | ⟨c0, t', rfl, hc0⟩
      · exact absurd heq.symm (by simp)
      · injection heq with h1 _
        subst h1
        have := hw₂ c0 (List.mem_cons_self c0 w₂')
        rw [this] at hc0
        exact absurd hc0 (by simp)
  | cons a w₁' ih =>
    intro w₂ t₁ t₂ hw₁ hw₂ hth₁ hth₂ heq
    cases w₂ with
    | nil =>
      rw [List.nil_append, List.cons_append] at heq
      rcases hth₂ with rfl | ⟨c0, t', rfl, hc0⟩
      · exact absurd heq (by simp)
      · injection heq with h1 _
        subst h1
        have := hw₁ a (List.mem_cons_self a w₁')
        rw [this] at hc0
        exact absurd hc0 (by simp)
    | cons b w₂' =>
      rw [List.cons_append, List.cons_append] at heq
      injection heq with h1 h2
      rcases ih (fun c hc => hw₁ c (List.mem_cons_of_mem a hc))
        (fun c hc => hw₂ c (List.mem_cons_of_mem b hc)) hth₁ hth₂ h2 with ⟨hh1, hh2⟩
      exact ⟨by rw [h1, hh1], hh2⟩

theorem wsThenTail_complete (ws t : Str) (d : Char) (tok : Str)
    (hwne : ws ≠ []) (hall : ∀ c ∈ ws, pySpace c = true) (hth : textHead t)
    (hnl : ∀ c ∈ t, c ≠ '\n') (hd : d ≠ '\n') (htok : tokOk tok = true) :
    wsThenTail (ws ++ t ++ ' ' :: d :: ' ' :: tok) = some (t, d, tok) := by
  cases ws with
  | nil => exact absurd rfl hwne
  | cons w ws' =>
    have hsome : (wsThenTail (w :: ws' ++ t ++ ' ' :: d :: ' ' :: tok)).isSome := by
      rw [List.cons_append, List.cons_append, wsThenTail_cons,
        if_pos (hall w (List.mem_cons_self w ws'))]
      exact afterWs_complete ws' t d tok (fun x hx => hall x (List.mem_cons_of_mem w hx))
        hth hnl hd htok
    rcases hx : wsThenTail (w :: ws' ++ t ++ ' ' :: d :: ' ' :: tok) with _ | ⟨t', d', tok'⟩
    · rw [hx] at hsome; exact absurd hsome (by simp)
    · rcases wsThenTail_sound hx with ⟨ws₂, heq, hwne₂, hall₂, hth₂, _, htok₂, _⟩
      -- two decompositions of the same list: first align the tails
      rcases tail_decomp_unique htok₂ htok heq.symm with ⟨hwt, hdd, htt⟩
      rcases ws_text_unique hall₂ hall hth₂ hth hwt with ⟨_, htx⟩
      rw [htx, hdd, htt]

theorem takeWhile_all_append {q : Char → Bool} :
    ∀ {xs : Str} {y : Char} {ys : Str}, (∀ c ∈ xs, q c = true) → q y = false →
      (xs ++ y :: ys).takeWhile q = xs ∧ (xs ++ y :: ys).dropWhile q = y :: ys := by
  intro xs
  induction xs with
  | nil =>
    intro y ys _ hy
    have hy' : ¬ q y = true := by simp [hy]
    rw [List.nil_append]
    exact ⟨by rw [List.takeWhile_cons_of_neg hy'], by rw [List.dropWhile_cons_of_neg hy']⟩
  | cons x xs' ih =>
    intro y ys hall hy
    have hx : q x = true := hall x (List.mem_cons_self x xs')
    rw [List.cons_append, List.takeWhile_cons_of_pos hx, List.dropWhile_cons_of_pos hx]
    rcases ih (fun c hc => hall c (List.mem_cons_of_mem x hc)) hy with ⟨h1, h2⟩
    exact ⟨by rw [h1], h2⟩

theorem bodyLineMatch_PAR (rest : Str) :
    bodyLineMatch ('*' :: 'P' :: 'A' :: 'R' :: rest)
      = (if (rest.takeWhile pyDigit).isEmpty then none
         else
           match rest.dropWhile pyDigit with
           | ':' :: rest2 =>
             match wsThenTail rest2 with
             | some (t, _, tok) => some (rest.takeWhile pyDigit, t, tok)
             | none => none
           | _ => none) := rfl

/-- C8: a (newline-free) normalized line matches the Utterance Extractor
pattern with captures `(p, t, tok)` exactly when it has the shape
`*PAR` ++ digits ++ `:` ++ whitespace ++ text ++ space ++ delimiter ++ space
++ token, anchored at both ends, where the digit run is non-empty, the
whitespace run is non-empty, the token is a run of non-whitespace characters
made of two non-empty parts joined by an underscore, and the captured text
is exactly the material between the (greedily maximal) whitespace run and
the unique viable delimiter position. -/
theorem c8_body_line_pattern (line : Str) (hnl : ∀ c ∈ line, c ≠ '\n')
    (p t tok : Str) :
    bodyLineMatch line = some (p, t, tok)
      ↔ ∃ ws d, line = str "*PAR" ++ p ++ ':' :: (ws ++ t ++ ' ' :: d :: ' ' :: tok)
          ∧ p ≠ [] ∧ (∀ c ∈ p, pyDigit c = true)
          ∧ ws ≠ [] ∧ (∀ c ∈ ws, pySpace c = true)
          ∧ (t = [] ∨ ∃ c0 t', t = c0 :: t' ∧ pySpace c0 = false)
          ∧ (∀ c ∈ tok, pySpace c = false)
          ∧ (∃ a b, tok = a ++ '_' :: b ∧ a ≠ [] ∧ b ≠ []) := by
  constructor
  · intro h
    rcases bodyLineMatch_inv h with ⟨rest, rest2, d, hline, hp, hde, hsplit, hws⟩
    rcases wsThenTail_sound hws with ⟨ws, hrest2, hwne, hall, hth, _, htok, _⟩
    have hpne : p ≠ [] := by
      intro hh; rw [hh] at hde; exact hde rfl
    have hpdig : ∀ c ∈ p, pyDigit c = true := by
      intro c hc; rw [hp] at hc; exact List.mem_takeWhile_imp hc
    refine ⟨ws, d, ?_, hpne, hpdig, hwne, hall, hth, ((tokOk_iff tok).1 htok).1,
      ((tokOk_iff tok).1 htok).2⟩
    rw [hline]
    have hr : rest = p ++ ':' :: rest2 := by
      conv_lhs => rw [← List.takeWhile_append_dropWhile pyDigit rest]
      rw [← hp, hsplit]
    rw [hr, hrest2]
    rfl
  · rintro ⟨ws, d, hline, hpne, hpdig, hwne, hall, hth, htokns, htoksplit⟩
    have htok : tokOk tok = true := (tokOk_iff tok).2 ⟨htokns, htoksplit⟩
    have hmem : ∀ c ∈ ws ++ t ++ ' ' :: d :: ' ' :: tok, c ∈ line := by
      intro c hc
      rw [hline]
      refine List.mem_append.2 (Or.inr ?_)
      exact List.mem_cons_of_mem ':' hc
    have hdnl : d ≠ '\n' := by
      apply hnl
      exact hmem d (by simp)
    have htnl : ∀ c ∈ t, c ≠ '\n' := by
      intro c hc
      exact hnl c (hmem c (by simp [hc]))
    have hcolon : pyDigit ':' = false := by decide
    have hsplit := @takeWhile_all_append pyDigit p ':'
      (ws ++ t ++ ' ' :: d :: ' ' :: tok) hpdig hcolon
    rw [hline]
    show bodyLineMatch
        ('*' :: 'P' :: 'A' :: 'R' :: (p ++ ':' :: (ws ++ t ++ ' ' :: d :: ' ' :: tok)))
        = some (p, t, tok)
    rw [bodyLineMatch_PAR]
    have hpe : p.isEmpty = false := by
      cases p with
      | nil => exact absurd rfl hpne
      | cons a l => rfl
    simp only [hsplit.1, hsplit.2, hpe, Bool.false_eq_true, if_false]
    rw [wsThenTail_complete ws t d tok hwne hall hth htnl hdnl htok]

/-- C8 witness. -/
theorem c8_body_line_pattern_witness :
    (∀ c ∈ str "*PAR5: hi . a_1", c ≠ '\n')
    ∧ (bodyLineMatch (str "*PAR5: hi . a_1") = some (str "5", str "hi", str "a_1")
      ↔ ∃ ws d, str "*PAR5: hi . a_1"
            = str "*PAR" ++ str "5" ++ ':' :: (ws ++ str "hi" ++ ' ' :: d :: ' ' :: str "a_1")
          ∧ str "5" ≠ [] ∧ (∀ c ∈ str "5", pyDigit c = true)
          ∧ ws ≠ [] ∧ (∀ c ∈ ws, pySpace c = true)
          ∧ (str "hi" = [] ∨ ∃ c0 t', str "hi" = c0 :: t' ∧ pySpace c0 = false)
          ∧ (∀ c ∈ str "a_1", pySpace c = false)
          ∧ (∃ a b, str "a_1" = a ++ '_' :: b ∧ a ≠ [] ∧ b ≠ [])) :=
  ⟨by decide, c8_body_line_pattern (str "*PAR5: hi . a_1") (by decide)
    (str "5") (str "hi") (str "a_1")⟩

/-! ### C9: substring search, and letters surviving the rewrites -/

theorem headMatches_iff (pat : Str) :
    ∀ hay : Str, headMatches pat hay = true ↔ ∃ post, hay = pat ++ post := by
  induction pat with
  | nil =>
    intro hay
    simp [headMatches]
  | cons a as ih =>
    intro hay
    cases hay with
    | nil =>
      simp [headMatches]
    | cons b bs =>
      rw [headMatches, Bool.and_eq_true]
      constructor
      · rintro ⟨h1, h2⟩
        rcases (ih bs).1 h2 with ⟨post, rfl⟩
        exact ⟨post, by rw [List.cons_append, show a = b by simpa using h1]⟩
      · rintro ⟨post, hpost⟩
        rw [List.cons_append] at hpost
        injection hpost with h1 h2
        exact ⟨by simp [h1], (ih bs).2 ⟨post, h2⟩⟩

theorem hasSubstr_iff (pat : Str) :
    ∀ hay : Str, hasSubstr pat hay = true ↔ ∃ pre post, hay = pre ++ pat ++ post := by
  intro hay
  induction hay with
  | nil =>
    rw [hasSubstr]
    constructor
    · intro h
      exact ⟨[], [], by simp [List.isEmpty_iff.1 h]⟩
    · rintro ⟨pre, post, hpp⟩
      have h1 := List.append_eq_nil.1 hpp.symm
      have h2 := List.append_eq_nil.1 h1.1
      simp [h2.2]
  | cons c rest ih =>
    rw [hasSubstr, Bool.or_eq_true]
    constructor
    · rintro (h | h)
      · rcases (headMatches_iff pat (c :: rest)).1 h with ⟨post, hpost⟩
        exact ⟨[], post, by simpa using hpost⟩
      · rcases ih.1 h with ⟨pre, post, hpp⟩
        exact ⟨c :: pre, post, by simp [hpp]⟩
    · rintro ⟨pre, post, hpp⟩
      cases pre with
      | nil =>
        exact Or.inl ((headMatches_iff pat (c :: rest)).2 ⟨post, by simpa using hpp⟩)
      | cons p0 pre' =>
        refine Or.inr (ih.2 ⟨pre', post, ?_⟩)
        rw [List.cons_append, List.cons_append] at hpp
        have h2 := congrArg List.tail hpp
        simpa using h2

/-- An ASCII letter; the fixed prompt phrases all contain letters, letters
are neither whitespace nor sentence terminators, and none of the rewrites of
the segmenter can delete every letter — this is what guarantees that a
phrase-carrying utterance always produces at least one C-unit. -/
def isAlpha (c : Char) : Bool := ('a' ≤ c && c ≤ 'z') || ('A' ≤ c && c ≤ 'Z')

theorem pySpace_not_alpha {c : Char} (h : pySpace c = true) : isAlpha c = false := by
  unfold pySpace at h
  simp only [Bool.or_eq_true, decide_eq_true_eq] at h
  rcases h with ((((rfl | rfl) | rfl) | rfl) | rfl) | rfl <;> decide

theorem alpha_not_space {c : Char} (h : isAlpha c = true) : pySpace c = false := by
  cases hs : pySpace c with
  | false => rfl
  | true => rw [pySpace_not_alpha hs] at h; cases h

theorem alpha_not_term {c : Char} (h : isAlpha c = true) : isTerm c = false := by
  unfold isAlpha at h
  unfold isTerm
  simp only [Bool.or_eq_true, Bool.and_eq_true, decide_eq_true_eq] at h
  simp only [Bool.or_eq_false_iff, decide_eq_false_iff_not]
  rcases h with ⟨h1, h2⟩ | ⟨h1, h2⟩ <;>
    exact ⟨⟨by rintro rfl; revert h1 h2; decide, by rintro rfl; revert h1 h2; decide⟩,
      by rintro rfl; revert h1 h2; decide⟩

theorem scanSubFuel_nil (f : Str → Option (Str × Str)) (n : Nat) :
    scanSubFuel f n [] = [] := by
  cases n <;> rfl

theorem scanSubFuel_succ_cons (f : Str → Option (Str × Str)) (n : Nat) (c : Char) (rest : Str) :
    scanSubFuel f (n + 1) (c :: rest)
      = match f (c :: rest) with
        | some (rep, after) =>
          if after.length ≤ rest.length then rep ++ scanSubFuel f n after
          else c :: scanSubFuel f n rest
        | none => c :: scanSubFuel f n rest := rfl

/-- If a matcher only ever rewrites matched segments in a way that keeps at
least one letter, then the whole scan keeps at least one letter. -/
theorem scanSubFuel_alpha (f : Str → Option (Str × Str))
    (hf : ∀ cs rep after, f cs = some (rep, after) →
      ∃ m, cs = m ++ after ∧ ((∃ c ∈ m, isAlpha c = true) → ∃ c ∈ rep, isAlpha c = true)) :
    ∀ (n : Nat) (cs : Str), (∃ c ∈ cs, isAlpha c = true) →
      ∃ c ∈ scanSubFuel f n cs, isAlpha c = true := by
  intro n
  induction n with
  | zero =>
    intro cs h
    cases cs with
    | nil => simp at h
    | cons c rest => exact h
  | succ n ih =>
    intro cs h
    cases cs with
    | nil => simp at h
    | cons c rest =>
      rw [scanSubFuel_succ_cons]
      rcases hm : f (c :: rest) with _ | ⟨rep, after⟩
      · rcases h with ⟨x, hx, hax⟩
        rcases List.mem_cons.1 hx with rfl | hx'
        · exact ⟨x, List.mem_cons_self x _, hax⟩
        · rcases ih rest ⟨x, hx', hax⟩ with ⟨y, hy, hay⟩
          exact ⟨y, List.mem_cons_of_mem c hy, hay⟩
      · show ∃ x ∈ (if after.length ≤ rest.length then rep ++ scanSubFuel f n after
            else c :: scanSubFuel f n rest), isAlpha x = true
        by_cases hlen : after.length ≤ rest.length
        · rw [if_pos hlen]
          rcases hf (c :: rest) rep after hm with ⟨m, hsplit, himp⟩
          rcases h with ⟨x, hx, hax⟩
          rw [hsplit] at hx
          rcases List.mem_append.1 hx with hxm | hxa
          · rcases himp ⟨x, hxm, hax⟩ with ⟨y, hy, hay⟩
            exact ⟨y, List.mem_append.2 (Or.inl hy), hay⟩
          · rcases ih after ⟨x, hxa, hax⟩ with ⟨y, hy, hay⟩
            exact ⟨y, List.mem_append.2 (Or.inr hy), hay⟩
        · rw [if_neg hlen]
          rcases h with ⟨x, hx, hax⟩
          rcases List.mem_cons.1 hx with rfl | hx'
          · exact ⟨x, List.mem_cons_self x _, hax⟩
          · rcases ih rest ⟨x, hx', hax⟩ with ⟨y, hy, hay⟩
            exact ⟨y, List.mem_cons_of_mem c hy, hay⟩

theorem scanSub_alpha (f : Str → Option (Str × Str))
    (hf : ∀ cs rep after, f cs = some (rep, after) →
      ∃ m, cs = m ++ after ∧ ((∃ c ∈ m, isAlpha c = true) → ∃ c ∈ rep, isAlpha c = true))
    (cs : Str) (h : ∃ c ∈ cs, isAlpha c = true) :
    ∃ c ∈ scanSub f cs, isAlpha c = true :=
  scanSubFuel_alpha f hf cs.length cs h

theorem matchAmp_hf :
    ∀ cs rep after, matchAmp cs = some (rep, after) →
      ∃ m, cs = m ++ after ∧ ((∃ c ∈ m, isAlpha c = true) → ∃ c ∈ rep, isAlpha c = true) := by
  intro cs rep after h
  unfold matchAmp at h
  split at h
  next rest =>
    dsimp only at h
    split at h
    next => exact absurd h (by simp)
    next hw =>
      simp only [Option.some.injEq, Prod.mk.injEq] at h
      obtain ⟨hrep, hafter⟩ := h
      refine ⟨'&' :: '-' :: rest.takeWhile pyWord, ?_, ?_⟩
      · rw [← hafter]
        simp [List.takeWhile_append_dropWhile]
      · rintro ⟨x, hx, hax⟩
        rcases List.mem_cons.1 hx with rfl | hx'
        · exact absurd hax (by decide)
        rcases List.mem_cons.1 hx' with rfl | hx''
        · exact absurd hax (by decide)
        · exact ⟨x, by rw [← hrep]; simp [hx''], hax⟩
  next => exact absurd h (by simp)

theorem tryBackref_sound {w rest : Str} :
    ∀ {k : Nat} {after : Str}, tryBackref w rest k = some after →
      ∃ j, j ≤ k ∧ rest = (rest.take j ++ w) ++ after := by
  intro k
  induction k with
  | zero =>
    intro after h
    unfold tryBackref at h
    split at h
    next hpre =>
      injection h with h'
      rcases (headMatches_iff w rest).1 hpre with ⟨post, hpost⟩
      refine ⟨0, le_refl 0, ?_⟩
      rw [← h', hpost]
      simp [List.drop_left]
    next => exact absurd h (by simp)
  | succ k ih =>
    intro after h
    unfold tryBackref at h
    split at h
    next hpre =>
      injection h with h'
      rcases (headMatches_iff w (rest.drop (k + 1))).1 hpre with ⟨post, hpost⟩
      refine ⟨k + 1, le_refl _, ?_⟩
      rw [← h', hpost]
      conv_lhs => rw [← List.take_append_drop (k + 1) rest]
      rw [hpost]
      simp [List.drop_left, List.append_assoc]
    next =>
      rcases ih h with ⟨j, hj, hr⟩
      exact ⟨j, Nat.le_succ_of_le hj, hr⟩

theorem matchRepTail_sound {w rest after : Str} (h : matchRepTail w rest = some after) :
    ∃ ws1 sp, rest = ws1 ++ ('[' :: '/' :: ']' :: ((sp ++ w) ++ after))
      ∧ (∀ c ∈ ws1, pySpace c = true) ∧ (∀ c ∈ sp, pySpace c = true) := by
  unfold matchRepTail at h
  split at h
  next r2 heq =>
    rcases tryBackref_sound h with ⟨j, hj, hr2⟩
    refine ⟨rest.takeWhile pySpace, r2.take j, ?_, ?_, ?_⟩
    · conv_lhs => rw [← List.takeWhile_append_dropWhile pySpace rest]
      rw [heq, ← hr2]
    · intro c hc; exact List.mem_takeWhile_imp hc
    · intro c hc
      have hj' : j ≤ (r2.takeWhile pySpace).length := hj
      have : r2.take j = (r2.takeWhile pySpace).take j := by
        conv_lhs => rw [← List.takeWhile_append_dropWhile pySpace r2]
        rw [List.take_append_of_le_length hj']
      rw [this] at hc
      exact List.mem_takeWhile_imp (List.mem_of_mem_take hc)
  next => exact absurd h (by simp)

theorem matchAngleRep_hf :
    ∀ cs rep after, matchAngleRep cs = some (rep, after) →
      ∃ m, cs = m ++ after ∧ ((∃ c ∈ m, isAlpha c = true) → ∃ c ∈ rep, isAlpha c = true) := by
  intro cs rep after h
  unfold matchAngleRep at h
  split at h
  next rest =>
    dsimp only at h
    split at h
    next => exact absurd h (by simp)
    next hph =>
      split at h
      next r1 hdw =>
        rcases hmt : matchRepTail (rest.takeWhile fun c => c ≠ '>') r1 with _ | after'
        · rw [hmt] at h; exact absurd h (by simp)
        · rw [hmt] at h
          simp only [Option.some.injEq, Prod.mk.injEq] at h
          obtain ⟨hrep, hafter⟩ := h
          subst hafter
          rcases matchRepTail_sound hmt with ⟨ws1, sp, hr1, hws1, hsp⟩
          set ph := rest.takeWhile fun c => c ≠ '>' with hphdef
          have hrest : rest = ph ++ ('>' :: r1) := by
            conv_lhs => rw [← List.takeWhile_append_dropWhile (fun c => c ≠ '>') rest]
            rw [hdw, hphdef]
          refine ⟨'<' :: ph ++ '>' :: ws1 ++ '[' :: '/' :: ']' :: (sp ++ ph), ?_, ?_⟩
          · rw [hrest, hr1]
            simp [List.append_assoc, List.cons_append]
          · rintro ⟨x, hx, hax⟩
            have hws1x : x ∉ ws1 := fun hw => by
              rw [pySpace_not_alpha (hws1 x hw)] at hax; cases hax
            have hspx : x ∉ sp := fun hw => by
              rw [pySpace_not_alpha (hsp x hw)] at hax; cases hax
            have hlit : x ≠ '<' ∧ x ≠ '>' ∧ x ≠ '[' ∧ x ≠ '/' ∧ x ≠ ']' := by
              refine ⟨?_, ?_, ?_, ?_, ?_⟩ <;> rintro rfl <;> exact absurd hax (by decide)
            have hxph : x ∈ ph := by
              simp only [List.mem_append, List.mem_cons, List.not_mem_nil, or_false] at hx
              tauto
            exact ⟨x, by rw [← hrep]; simp [hxph], hax⟩
      next => exact absurd h (by simp)
  next => exact absurd h (by simp)

theorem trySingleRep_sound {cs rep after : Str} :
    ∀ {l : Nat}, trySingleRep cs l = some (rep, after) →
      ∃ L, 1 ≤ L ∧ matchRepTail (cs.take L) (cs.drop L) = some after
        ∧ rep = '(' :: cs.take L ++ ')' :: ' ' :: cs.take L := by
  intro l
  induction l with
  | zero => intro h; exact absurd h (by simp [trySingleRep])
  | succ l ih =>
    intro h
    unfold trySingleRep at h
    rcases hmt : matchRepTail (cs.take (l + 1)) (cs.drop (l + 1)) with _ | after'
    · rw [hmt] at h
      exact ih h
    · rw [hmt] at h
      simp only [Option.some.injEq, Prod.mk.injEq] at h
      obtain ⟨hrep, hafter⟩ := h
      subst hafter
      exact ⟨l + 1, Nat.succ_le_succ (Nat.zero_le l), hmt, hrep.symm⟩

theorem matchSingleRep_hf :
    ∀ cs rep after, matchSingleRep cs = some (rep, after) →
      ∃ m, cs = m ++ after ∧ ((∃ c ∈ m, isAlpha c = true) → ∃ c ∈ rep, isAlpha c = true) := by
  intro cs rep after h
  simp only [matchSingleRep] at h
  split at h
  next => exact absurd h (by simp)
  next hrun =>
    rcases trySingleRep_sound h with ⟨L, hL1, hmt, hrep⟩
    rcases matchRepTail_sound hmt with ⟨ws1, sp, hdrop, hws1, hsp⟩
    refine ⟨cs.take L ++ ws1 ++ '[' :: '/' :: ']' :: (sp ++ cs.take L), ?_, ?_⟩
    · conv_lhs => rw [← List.take_append_drop L cs]
      rw [hdrop]
      simp [List.append_assoc, List.cons_append]
    · rintro ⟨x, hx, hax⟩
      have hxw : x ∈ cs.take L := by
        simp only [List.mem_append] at hx
        rcases hx with (hx | hx) | hx
        · exact hx
        · rw [pySpace_not_alpha (hws1 x hx)] at hax; cases hax
        · rcases List.mem_cons.1 hx with rfl | hx'
          · exact absurd hax (by decide)
          rcases List.mem_cons.1 hx' with rfl | hx''
          · exact absurd hax (by decide)
          rcases List.mem_cons.1 hx'' with rfl | hx3
          · exact absurd hax (by decide)
          · rcases List.mem_append.1 hx3 with hxs | hxp
            · rw [pySpace_not_alpha (hsp x hxs)] at hax; cases hax
            · exact hxp
      exact ⟨x, by rw [hrep]; simp [hxw], hax⟩

theorem mem_splitOnPred_of_mem {p : Char → Bool} {c : Char} (hpc : p c = false) :
    ∀ {cs : Str}, c ∈ cs → ∃ frag ∈ splitOnPred p cs, c ∈ frag := by
  intro cs
  induction cs with
  | nil => intro h; simp at h
  | cons a rest ih =>
    intro h
    rw [splitOnPred]
    by_cases ha : p a = true
    · rw [if_pos ha]
      rcases List.mem_cons.1 h with rfl | h'
      · rw [ha] at hpc; cases hpc
      · rcases ih h' with ⟨frag, hfrag, hc⟩
        exact ⟨frag, List.mem_cons_of_mem [] hfrag, hc⟩
    · rw [if_neg ha]
      rcases hsp : splitOnPred p rest with _ | ⟨h0, t0⟩
      · exact absurd hsp (splitOnPred_ne_nil p rest)
      · rcases List.mem_cons.1 h with rfl | h'
        · exact ⟨c :: h0, List.mem_cons_self _ _, List.mem_cons_self c h0⟩
        · rcases ih h' with ⟨frag, hfrag, hc⟩
          rw [hsp] at hfrag
          rcases List.mem_cons.1 hfrag with rfl | hfrag'
          · exact ⟨a :: frag, List.mem_cons_self _ _, List.mem_cons_of_mem a hc⟩
          · exact ⟨frag, List.mem_cons_of_mem _ hfrag', hc⟩

/-- A text containing a letter always yields at least one C-unit. -/
theorem segment_ne_nil_of_alpha {text : Str} (h : ∃ c ∈ text, isAlpha c = true) :
    segment_into_c_units text ≠ [] := by
  have h1 := scanSub_alpha matchAmp matchAmp_hf text h
  have h2 := scanSub_alpha matchAngleRep matchAngleRep_hf _ h1
  have h3 := scanSub_alpha matchSingleRep matchSingleRep_hf _ h2
  rcases h3 with ⟨c, hc, hac⟩
  rcases mem_splitOnPred_of_mem (alpha_not_term hac) hc with ⟨frag, hfrag, hcf⟩
  have hcs : c ∈ pyStrip frag := mem_pyStrip_of_mem (alpha_not_space hac) hcf
  have hne : (pyStrip frag).isEmpty = false := by
    cases hp : pyStrip frag with
    | nil => rw [hp] at hcs; simp at hcs
    | cons a l => rfl
  apply List.ne_nil_of_mem
  show (if (pyStrip frag).getLastD ' ' = '.' then pyStrip frag else pyStrip frag ++ ['.'])
    ∈ segment_into_c_units text
  unfold segment_into_c_units
  refine List.mem_filterMap.2 ⟨frag, hfrag, ?_⟩
  rw [if_neg (by rw [hne]; simp)]
  split <;> rfl

/-! ### C9: the prompt map -/

def pmKeys (m : PMap) : List Str := m.map Prod.fst

theorem setTrue_keys (m : PMap) (name : Str) : pmKeys (setTrue m name) = pmKeys m := by
  unfold pmKeys setTrue
  rw [List.map_map]
  apply List.map_congr_left
  intro kv _
  by_cases h : kv.1 = name <;> simp [h]

theorem pmLookup_setTrue_self {m : PMap} {name : Str} (h : name ∈ pmKeys m) :
    pmLookup (setTrue m name) name = some true := by
  induction m with
  | nil => simp [pmKeys] at h
  | cons kv rest ih =>
    unfold setTrue pmLookup
    rw [List.map_cons, List.find?]
    by_cases hc : kv.1 = name
    · rw [if_pos hc]
      simp [hc]
    · rw [if_neg hc]
      have hpred : ((kv.1, kv.2).1 = name : Bool) = false := by
        simpa using hc
      simp only [hpred]
      have hname : name ∈ pmKeys rest := by
        unfold pmKeys at h
        rw [List.map_cons] at h
        rcases List.mem_cons.1 h with heq | h'
        · exact absurd heq.symm hc
        · exact h'
      have := ih hname
      unfold pmLookup setTrue at this
      simpa using this

theorem pmLookup_setTrue_mono {m : PMap} {name k : Str}
    (h : pmLookup m name = some true) : pmLookup (setTrue m k) name = some true := by
  induction m with
  | nil => simp [pmLookup] at h
  | cons kv rest ih =>
    unfold pmLookup at h
    unfold pmLookup setTrue
    rw [List.find?] at h
    rw [List.map_cons, List.find?]
    by_cases hc : kv.1 = name
    · simp only [show (kv.1 = name : Bool) = true by simpa using hc] at h
      have hval : kv.2 = true := by simpa using h
      by_cases hk : kv.1 = k
      · rw [if_pos hk]
        simp only [show ((kv.1, true).1 = name : Bool) = true by simpa using hc]
        simp
      · rw [if_neg hk]
        simp only [show (kv.1 = name : Bool) = true by simpa using hc]
        simpa using hval
    · simp only [show (kv.1 = name : Bool) = false by simpa using hc] at h
      have hih := ih (by simpa [pmLookup] using h)
      unfold pmLookup setTrue at hih
      by_cases hk : kv.1 = k
      · rw [if_pos hk]
        simp only [show ((kv.1, true).1 = name : Bool) = false by simpa using hc]
        simpa using hih
      · rw [if_neg hk]
        simp only [show (kv.1 = name : Bool) = false by simpa using hc]
        simpa using hih

theorem foldl_setTrue_mono (ps : List (Str × Str)) (text : Str) :
    ∀ {f : PMap} {name : Str}, pmLookup f name = some true →
      pmLookup (ps.foldl (fun m pr => if hasSubstr pr.2 text then setTrue m pr.1 else m) f)
        name = some true := by
  induction ps with
  | nil => intro f name h; exact h
  | cons pr rest ih =>
    intro f name h
    rw [List.foldl_cons]
    by_cases hc : hasSubstr pr.2 text = true
    · rw [if_pos hc]
      exact ih (pmLookup_setTrue_mono h)
    · rw [if_neg hc]
      exact ih h

theorem foldl_setTrue_keys (ps : List (Str × Str)) (text : Str) :
    ∀ f : PMap,
      pmKeys (ps.foldl (fun m pr => if hasSubstr pr.2 text then setTrue m pr.1 else m) f)
        = pmKeys f := by
  induction ps with
  | nil => intro f; rfl
  | cons pr rest ih =>
    intro f
    rw [List.foldl_cons]
    by_cases hc : hasSubstr pr.2 text = true
    · rw [if_pos hc, ih, setTrue_keys]
    · rw [if_neg hc, ih]

theorem applyFound_mono {text : Str} {f : PMap} {name : Str}
    (h : pmLookup f name = some true) : pmLookup (applyFound text f) name = some true :=
  foldl_setTrue_mono PROMPTS text h

theorem applyFound_keys (text : Str) (f : PMap) : pmKeys (applyFound text f) = pmKeys f :=
  foldl_setTrue_keys PROMPTS text f

theorem applyFound_sets {text name phrase : Str} (hmem : (name, phrase) ∈ PROMPTS)
    (hph : hasSubstr phrase text = true) :
    ∀ {f : PMap}, name ∈ pmKeys f → pmLookup (applyFound text f) name = some true := by
  unfold applyFound
  have : ∀ (ps : List (Str × Str)), (name, phrase) ∈ ps → ∀ {f : PMap}, name ∈ pmKeys f →
      pmLookup (ps.foldl (fun m pr => if hasSubstr pr.2 text then setTrue m pr.1 else m) f)
        name = some true := by
    intro ps
    induction ps with
    | nil => intro hm; simp at hm
    | cons pr rest ih =>
      intro hm f hkey
      rw [List.foldl_cons]
      rcases List.mem_cons.1 hm with heq | hm'
      · rw [← heq, if_pos hph]
        exact foldl_setTrue_mono rest text (pmLookup_setTrue_self hkey)
      · by_cases hc : hasSubstr pr.2 text = true
        · rw [if_pos hc]
          exact ih hm' (by rw [setTrue_keys]; exact hkey)
        · rw [if_neg hc]
          exact ih hm' hkey
  intro f hkey
  exact this PROMPTS hmem hkey

theorem foldl_cuFound_mono (cus : List Str) (ip : Bool) (text : Str) :
    ∀ {f : PMap} {name : Str}, pmLookup f name = some true →
      pmLookup (cus.foldl (fun m _ => if ip then applyFound text m else m) f) name
        = some true := by
  induction cus with
  | nil => intro f name h; exact h
  | cons cu rest ih =>
    intro f name h
    rw [List.foldl_cons]
    cases ip with
    | false => exact ih (by simpa using h)
    | true => exact ih (by simpa using applyFound_mono h)

theorem foldl_cuFound_keys (cus : List Str) (ip : Bool) (text : Str) :
    ∀ f : PMap,
      pmKeys (cus.foldl (fun m _ => if ip then applyFound text m else m) f) = pmKeys f := by
  induction cus with
  | nil => intro f; rfl
  | cons cu rest ih =>
    intro f
    rw [List.foldl_cons]
    cases ip with
    | false => exact ih f
    | true =>
      show pmKeys (List.foldl (fun m _ => if (true : Bool) = true then applyFound text m else m)
        (applyFound text f) rest) = pmKeys f
      rw [ih, applyFound_keys]

theorem foundLineStep_mono {ip : Bool} {f : PMap} {name : Str} (raw : Str)
    (h : pmLookup f name = some true) :
    pmLookup (foundLineStep ip f raw) name = some true := by
  unfold foundLineStep
  cases matchLine raw with
  | none => exact h
  | some u => exact foldl_cuFound_mono _ ip u.text h

theorem foundLineStep_keys (ip : Bool) (f : PMap) (raw : Str) :
    pmKeys (foundLineStep ip f raw) = pmKeys f := by
  unfold foundLineStep
  cases matchLine raw with
  | none => rfl
  | some u => exact foldl_cuFound_keys _ ip u.text f

theorem foldl_foundLineStep_mono (ls : List Str) (ip : Bool) :
    ∀ {f : PMap} {name : Str}, pmLookup f name = some true →
      pmLookup (ls.foldl (foundLineStep ip) f) name = some true := by
  induction ls with
  | nil => intro f name h; exact h
  | cons raw rest ih =>
    intro f name h
    rw [List.foldl_cons]
    exact ih (foundLineStep_mono raw h)

theorem foldl_foundLineStep_keys (ls : List Str) (ip : Bool) :
    ∀ f : PMap, pmKeys (ls.foldl (foundLineStep ip) f) = pmKeys f := by
  induction ls with
  | nil => intro f; rfl
  | cons raw rest ih =>
    intro f
    rw [List.foldl_cons, ih, foundLineStep_keys]

/-! ### C9: tag-line counts -/

theorem count_tag_zero (text name : Str) :
    ∀ ps : List (Str × Str), name ∉ ps.map Prod.fst →
      ((ps.filter fun pr => hasSubstr pr.2 text).map
        (fun pr => '+' :: ' ' :: pr.1)).count ('+' :: ' ' :: name) = 0 := by
  intro ps
  induction ps with
  | nil => intro _; rfl
  | cons pr rest ih =>
    intro h
    rw [List.map_cons] at h
    have hne : pr.1 ≠ name := fun hc => h (by rw [hc]; exact List.mem_cons_self name _)
    have hrest : name ∉ rest.map Prod.fst := fun hc => h (List.mem_cons_of_mem _ hc)
    rw [List.filter_cons]
    by_cases hc : hasSubstr pr.2 text = true
    · rw [if_pos hc, List.map_cons, List.count_cons, ih hrest]
      simp [hne]
    · rw [if_neg hc]
      exact ih hrest

theorem count_tag_one (text : Str) :
    ∀ ps : List (Str × Str), (ps.map Prod.fst).Nodup →
      ∀ {name phrase : Str}, (name, phrase) ∈ ps → hasSubstr phrase text = true →
      ((ps.filter fun pr => hasSubstr pr.2 text).map
        (fun pr => '+' :: ' ' :: pr.1)).count ('+' :: ' ' :: name) = 1 := by
  intro ps
  induction ps with
  | nil => intro _ name phrase hm; simp at hm
  | cons pr rest ih =>
    intro hnd name phrase hm hph
    rw [List.map_cons] at hnd
    rcases List.nodup_cons.1 hnd with ⟨hnotin, hnd'⟩
    rw [List.filter_cons]
    rcases List.mem_cons.1 hm with heq | hm'
    · have hpr1 : pr.1 = name := by rw [← heq]
      have hpr2 : pr.2 = phrase := by rw [← heq]
      rw [if_pos (by rw [hpr2]; exact hph), List.map_cons, List.count_cons,
        count_tag_zero text name rest (by rw [← hpr1]; exact hnotin)]
      simp [hpr1]
    · have hne : pr.1 ≠ name := by
        intro hc
        apply hnotin
        rw [hc]
        exact List.mem_map_of_mem Prod.fst hm'
      by_cases hc : hasSubstr pr.2 text = true
      · rw [if_pos hc, List.map_cons, List.count_cons, ih hnd' hm' hph]
        simp [hne]
      · rw [if_neg hc]
        exact ih hnd' hm' hph

theorem roleChar_vals (pp : Option Str) (par : Str) :
    roleChar pp par = 'E' ∨ roleChar pp par = 'C' := by
  cases pp with
  | none => exact Or.inr rfl
  | some p =>
    by_cases h : p ≠ [] ∧ par = p
    · refine Or.inl ?_
      show (if p ≠ [] ∧ par = p then 'E' else 'C') = 'E'
      rw [if_pos h]
    · refine Or.inr ?_
      show (if p ≠ [] ∧ par = p then 'E' else 'C') = 'C'
      rw [if_neg h]

theorem count_uttLines (pp : Option Str) (u : Utt) (name : Str)
    (htag : (tagLinesFor true u.text).count ('+' :: ' ' :: name) = 1) :
    (uttLines pp true u).count ('+' :: ' ' :: name)
      = (segment_into_c_units u.text).length := by
  unfold uttLines
  have hrole : (((roleChar pp u.par :: ' ' :: ·) : Str → Str) = fun cu =>
      roleChar pp u.par :: ' ' :: cu) := rfl
  generalize segment_into_c_units u.text = cus
  induction cus with
  | nil => rfl
  | cons cu rest ih =>
    rw [List.flatMap_cons, List.count_append, List.count_cons, ih]
    have hne : (((roleChar pp u.par :: ' ' :: cu) : Str) == ('+' :: ' ' :: name)) = false := by
      rcases roleChar_vals pp u.par with h | h <;> simp [h]
    rw [hne, htag]
    simp [Nat.add_comm]

/-- C9: with prompts enabled, for every matched utterance whose *raw* text
contains the phrase of prompt `name`, the tag line `+ name` occurs exactly
once in the utterance's per-C-unit tag block (so it follows every C-unit
line exactly once, and an utterance split into n C-units yields n copies in
its output block), and the prompt map ends with `name ↦ true`. -/
theorem c9_prompt_tagging (content : Str) (name phrase : Str)
    (hmem : (name, phrase) ∈ PROMPTS) (u : Utt) (hu : u ∈ extractUtts content)
    (hph : hasSubstr phrase u.text = true) :
    (tagLinesFor true u.text).count ('+' :: ' ' :: name) = 1
    ∧ (uttLines (promptSpeaker content) true u).count ('+' :: ' ' :: name)
        = (segment_into_c_units u.text).length
    ∧ pmLookup (process_cha_content content true).2 name = some true := by
  have hnd : (PROMPTS.map Prod.fst).Nodup := by decide
  have htag : (tagLinesFor true u.text).count ('+' :: ' ' :: name) = 1 := by
    show ((if (true : Bool) = true then (PROMPTS.filter fun pr => hasSubstr pr.2 u.text).map
        (fun pr => '+' :: ' ' :: pr.1) else []) : List Str).count ('+' :: ' ' :: name) = 1
    rw [if_pos rfl]
    exact count_tag_one u.text PROMPTS hnd hmem hph
  refine ⟨htag, count_uttLines _ u name htag, ?_⟩
  have hout : (process_cha_content content true).2
      = (chaLines content).foldl (foundLineStep true) initFound := by
    show (processState content true).2.2 = _
    rw [processState_eq]
  rw [hout]
  unfold extractUtts at hu
  rcases List.mem_filterMap.1 hu with ⟨raw, hraw, hmatch⟩
  rcases List.append_of_mem hraw with ⟨L1, L2, hls⟩
  rw [hls, List.foldl_append, List.foldl_cons]
  have halpha : ∃ c ∈ u.text, isAlpha c = true := by
    have hpa : ∃ c ∈ phrase, isAlpha c = true := by
      simp only [PROMPTS, List.mem_cons, List.not_mem_nil, or_false, Prod.mk.injEq] at hmem
      rcases hmem with ⟨_, rfl⟩ | ⟨_, rfl⟩ | ⟨_, rfl⟩ | ⟨_, rfl⟩ | ⟨_, rfl⟩ | ⟨_, rfl⟩ <;> decide
    rcases (hasSubstr_iff phrase u.text).1 hph with ⟨pre, post, hdec⟩
    rcases hpa with ⟨c, hc, hac⟩
    exact ⟨c, by rw [hdec]; simp [hc], hac⟩
  have hcus : segment_into_c_units u.text ≠ [] := segment_ne_nil_of_alpha halpha
  have hkeys : name ∈ pmKeys (L1.foldl (foundLineStep true) initFound) := by
    rw [foldl_foundLineStep_keys]
    show name ∈ pmKeys initFound
    unfold pmKeys initFound
    rw [List.map_map]
    have hmm : name ∈ PROMPTS.map Prod.fst := List.mem_map_of_mem Prod.fst hmem
    simpa using hmm
  have hstep : pmLookup
      (foundLineStep true (L1.foldl (foundLineStep true) initFound) raw) name = some true := by
    unfold foundLineStep
    rw [hmatch]
    show pmLookup ((segment_into_c_units u.text).foldl
        (fun m _ => if (true : Bool) = true then applyFound u.text m else m)
        (L1.foldl (foundLineStep true) initFound)) name = some true
    rcases hseg : segment_into_c_units u.text with _ | ⟨cu, rest⟩
    · exact absurd hseg hcus
    · rw [List.foldl_cons]
      exact foldl_cuFound_mono rest true u.text (applyFound_sets hmem hph hkeys)
  exact foldl_foundLineStep_mono L2 true hstep

/-- C9 witness. -/
theorem c9_prompt_tagging_witness :
    (tagLinesFor true (str "story about a time when you felt proud of yourself")).count
        ('+' :: ' ' :: str "proud") = 1
    ∧ (uttLines (promptSpeaker
          (str "*PAR1: story about a time when you felt proud of yourself . c_9")) true
        ⟨str "1", str "story about a time when you felt proud of yourself", str "c_9"⟩).count
          ('+' :: ' ' :: str "proud")
        = (segment_into_c_units
            (str "story about a time when you felt proud of yourself")).length
    ∧ pmLookup (process_cha_content
          (str "*PAR1: story about a time when you felt proud of yourself . c_9") true).2
        (str "proud") = some true :=
  c9_prompt_tagging (str "*PAR1: story about a time when you felt proud of yourself . c_9")
    (str "proud") (str "story about a time when you felt proud of yourself") (by decide)
    ⟨str "1", str "story about a time when you felt proud of yourself", str "c_9"⟩
    (by decide) (by decide)

end Chat2Txt
